import Mathlib

/-!
Verification of the tile cache and preloading subsystem of expo-custom-map.

Shallow embedding of:
* `TileCache` (src/TileCache.ts): in-memory map from tile key to cached tile,
  LRU cleanup with an 80% hysteresis threshold, access statistics.
* `useAdvancedTileCache` (src/hooks/useAdvancedTileCache.ts): keyed cache with a
  tracked byte counter, lazy expiry in `getTile`, score-based batch eviction,
  and in-flight request deduplication in `downloadTile`.
* `TilePreloader` (src/TilePreloader.ts): area/route tile enumeration, download
  queue processing with cancellation, URL template substitution.

Numeric conventions: JS `number` timestamps are ℤ (milliseconds); byte sizes are
ℕ or ℚ exactly as the source computes them (`data.length`, `data.length * 0.75`).
The float literals `0.8` and `0.3` of the source are modelled as the rationals
4/5 and 3/10, and comparisons against `maxSizeBytes * 0.8` are written in the
cross-multiplied integer form `5 * size ≤ 4 * maxSizeBytes`. `Date.now()` is
passed explicitly as a parameter `now`. The persistent AsyncStorage mirror is an
external best-effort collaborator and is outside the in-memory semantics
modelled here (memory-only mode, `TileCache.createMemoryOnlyCache`).
-/

namespace TileCacheModel

/-- Cached tile record (interface `CachedTile` in src/TileCache.ts). -/
structure CachedTile where
  url : List Char
  data : List Char
  size : ℕ
  timestamp : ℤ
  accessCount : ℕ
  lastAccess : ℤ
deriving DecidableEq

/-- Tile identity as passed to `TileCache.set` (interface `TileInfo`). -/
structure TileInfo where
  x : ℤ
  y : ℤ
  z : ℤ
  url : List Char
deriving DecidableEq

/-- Tile key. The source's key string `"z-x-y"` is modelled by the triple
itself; the string form is injective in `(z, x, y)`. -/
abbrev TKey : Type := ℤ × ℤ × ℤ

/-- `getTileKey(x, y, z)` builds the key `z-x-y`. -/
def getTileKey (x y z : ℤ) : TKey := (z, x, y)

/-- Memory-mode cache state: the JS `Map` (entries in insertion order) plus the
configuration fields `maxSizeMB` and `maxAge`. -/
structure TCState where
  cache : List (TKey × CachedTile)
  maxSizeMB : ℕ
  maxAge : ℤ
deriving DecidableEq

/-- Sum of the `size` fields over a list of map entries (bytes). -/
def sumSizes (l : List (TKey × CachedTile)) : ℕ :=
  (l.map (fun e => e.2.size)).sum

/-- The byte ceiling `maxSizeBytes = maxSizeMB * 1024 * 1024`. -/
def maxBytes (st : TCState) : ℕ := st.maxSizeMB * 1024 * 1024

/-- `getCurrentSizeMB()`: total size divided by `1024 * 1024`. -/
def getCurrentSizeMB (st : TCState) : ℚ :=
  (sumSizes st.cache : ℚ) / (1024 * 1024)

/-- The expired-entry sweep inside `cleanup`: every entry with
`now - timestamp > maxAge` is deleted; the kept entries are the rest. -/
def sweepKeep (now maxAge : ℤ) (l : List (TKey × CachedTile)) :
    List (TKey × CachedTile) :=
  l.filter (fun e => decide (now - e.2.timestamp ≤ maxAge))

/-- Comparator used by `cleanup`'s sort: ascending `lastAccess`
(`(a, b) => a.lastAccess - b.lastAccess`). -/
def lastAccessLe (a b : TKey × CachedTile) : Prop :=
  a.2.lastAccess ≤ b.2.lastAccess

instance : DecidableRel lastAccessLe := fun a b =>
  inferInstanceAs (Decidable (a.2.lastAccess ≤ b.2.lastAccess))

instance : IsTotal (TKey × CachedTile) lastAccessLe :=
  ⟨fun a b => le_total a.2.lastAccess b.2.lastAccess⟩

instance : IsTrans (TKey × CachedTile) lastAccessLe :=
  ⟨fun _ _ _ hab hbc => le_trans hab hbc⟩

/-- The LRU deletion loop of `cleanup`: walk the entries sorted by ascending
`lastAccess`, delete each one and subtract its size from the running total,
and stop as soon as the running total is at or under 80% of the byte ceiling
(`currentSize <= maxSizeBytes * 0.8`, written `5 * size' ≤ 4 * maxB`).
Returns the keys deleted, in deletion order. -/
def lruDeleted (maxB : ℕ) : List (TKey × CachedTile) → ℕ → List TKey
  | [], _ => []
  | e :: rest, size =>
    let size' := size - e.2.size
    if 5 * size' ≤ 4 * maxB then [e.1]
    else e.1 :: lruDeleted maxB rest size'

/-- `cleanup()`: sweep expired entries, then — only if the remaining total size
exceeds `maxSizeBytes` — delete least-recently-used entries until the running
total drops to 80% of the ceiling. A stable sort models `Array.sort` on the
`lastAccess` comparator. -/
def cleanup (now : ℤ) (st : TCState) : TCState :=
  let swept := sweepKeep now st.maxAge st.cache
  let currentSize := sumSizes swept
  if maxBytes st < currentSize then
    let sorted := List.insertionSort lastAccessLe swept
    let del := lruDeleted (maxBytes st) sorted currentSize
    { st with cache := swept.filter (fun e => decide (e.1 ∉ del)) }
  else
    { st with cache := swept }

/-- JS `Map.set`: overwrite in place if the key is present, else append. -/
def mapSet (m : List (TKey × CachedTile)) (k : TKey) (v : CachedTile) :
    List (TKey × CachedTile) :=
  if m.any (fun e => decide (e.1 = k)) then
    m.map (fun e => if e.1 = k then (k, v) else e)
  else
    m ++ [(k, v)]

/-- `set(tile, data)`: build the entry (`size = data.length`,
`accessCount = 1`, both timestamps `now`), store it, then run `cleanup`. -/
def set (now : ℤ) (tile : TileInfo) (data : List Char) (st : TCState) :
    TCState :=
  let key := getTileKey tile.x tile.y tile.z
  let entry : CachedTile :=
    { url := tile.url, data := data, size := data.length, timestamp := now,
      accessCount := 1, lastAccess := now }
  cleanup now { st with cache := mapSet st.cache key entry }

/-- `get(x, y, z)`: on a present key, bump `accessCount`, refresh `lastAccess`
and return the stored data; on a missing key return `null`. The source performs
no expiry check here. -/
def get (now : ℤ) (x y z : ℤ) (st : TCState) :
    Option (List Char) × TCState :=
  let key := getTileKey x y z
  match st.cache.find? (fun e => decide (e.1 = key)) with
  | some e =>
    (some e.2.data,
     { st with cache := st.cache.map (fun p =>
         if p.1 = key then
           (p.1, { p.2 with accessCount := p.2.accessCount + 1,
                            lastAccess := now })
         else p) })
  | none => (none, st)

/-- `has(x, y, z)`: pure membership check. -/
def has (x y z : ℤ) (st : TCState) : Bool :=
  st.cache.any (fun e => decide (e.1 = getTileKey x y z))

/-- `delete(x, y, z)`: remove the key from the map. -/
def del (x y z : ℤ) (st : TCState) : TCState :=
  { st with cache := st.cache.eraseP (fun e => decide (e.1 = getTileKey x y z)) }

/-- Result record of `getStats()` (interface `CacheStats`). -/
structure CacheStats where
  size : ℕ
  currentSizeMB : ℚ
  maxSizeMB : ℕ
  hitRate : ℚ
deriving DecidableEq

/-- `Math.round`, as a function on exact rationals. -/
def jsRound (q : ℚ) : ℤ := ⌊q + 1 / 2⌋

/-- `getStats()`: `totalRequests` and `totalHits` are BOTH the sum of
`accessCount` over the live entries (that is what the source computes), and
`hitRate = totalRequests > 0 ? totalHits / totalRequests : 0`. -/
def getStats (st : TCState) : CacheStats :=
  let totalRequests : ℚ := ((st.cache.map (fun e => e.2.accessCount)).sum : ℕ)
  let totalHits : ℚ := ((st.cache.map (fun e => e.2.accessCount)).sum : ℕ)
  { size := st.cache.length,
    currentSizeMB := (jsRound (getCurrentSizeMB st * 100) : ℚ) / 100,
    maxSizeMB := st.maxSizeMB,
    hitRate := if 0 < totalRequests then totalHits / totalRequests else 0 }

/-- A concrete state whose single entry is far past `maxAge` at `now = 100`:
entry created at time 0, `maxAge = 10`. -/
def stExpired : TCState :=
  { cache := [((1, 1, 1),
      { url := ['u'], data := ['d'], size := 1, timestamp := 0,
        accessCount := 1, lastAccess := 0 })],
    maxSizeMB := 100, maxAge := 10 }

/-- Scenario state for the `getStats` claim: an empty memory-only cache with
the default configuration (`maxSizeMB = 100`, `maxAge` = 7 days in ms). -/
def stEmpty : TCState := { cache := [], maxSizeMB := 100, maxAge := 604800000 }

/-- The `getStats` scenario: `set` one tile, `get` an absent key, then `get`
the present key. -/
def statsScenario : TCState :=
  let st1 := set 0 { x := 1, y := 2, z := 3, url := ['u'] } ['a', 'b'] stEmpty
  let st2 := (get 1 9 9 9 st1).2
  (get 2 1 2 3 st2).2

/-- Lookup by key in the cache map, returning the stored record. -/
def tcFind (st : TCState) (k : TKey) : Option CachedTile :=
  (st.cache.find? (fun e => decide (e.1 = k))).map Prod.snd

/-- Eviction score that claim C5 ascribes to `TileCache` entries:
`accessCount × priority / (now − lastAccessedAt)` with the default
`priority = 1` (a `TileCache` entry has no priority field). -/
def specScoreTC (now : ℤ) (t : CachedTile) : ℚ :=
  (t.accessCount : ℚ) * 1 / ((now : ℚ) - (t.lastAccess : ℚ))

/-- Ascending order on the claimed score. -/
def specScoreLe (now : ℤ) (a b : TKey × CachedTile) : Prop :=
  specScoreTC now a.2 ≤ specScoreTC now b.2

instance (now : ℤ) : DecidableRel (specScoreLe now) := fun a b =>
  inferInstanceAs (Decidable (specScoreTC now a.2 ≤ specScoreTC now b.2))

instance (now : ℤ) : IsTotal (TKey × CachedTile) (specScoreLe now) :=
  ⟨fun a b => le_total (specScoreTC now a.2) (specScoreTC now b.2)⟩

instance (now : ℤ) : IsTrans (TKey × CachedTile) (specScoreLe now) :=
  ⟨fun _ _ _ hab hbc => le_trans hab hbc⟩

/-- Modelled from the spec: the eviction pass exactly as claim C5 states it
for this cache — after the expiry sweep, if still over the byte ceiling, sort
the remaining entries ascending by `specScoreTC` and remove the lowest-scoring
30% of them in one batch. This is a spec-side definition, written for
comparison with the source's `cleanup`. -/
def specBatchEviction (now : ℤ) (st : TCState) : TCState :=
  let swept := sweepKeep now st.maxAge st.cache
  if maxBytes st < sumSizes swept then
    let sorted := List.insertionSort (specScoreLe now) swept
    let toDelete := (sorted.take (3 * sorted.length / 10)).map Prod.fst
    { st with cache := swept.filter (fun e => decide (e.1 ∉ toDelete)) }
  else
    { st with cache := swept }

/-- A concrete over-budget state for the eviction-policy comparison: three
fresh entries of 400000 bytes each against a 1 MB ceiling, with pairwise
distinct `lastAccess` values. -/
def stOverBudget : TCState :=
  { cache :=
      [((1, 1, 1),
        { url := ['a'], data := ['a'], size := 400000, timestamp := 50,
          accessCount := 1, lastAccess := 10 }),
       ((1, 1, 2),
        { url := ['b'], data := ['b'], size := 400000, timestamp := 50,
          accessCount := 1, lastAccess := 20 }),
       ((1, 1, 3),
        { url := ['c'], data := ['c'], size := 400000, timestamp := 50,
          accessCount := 1, lastAccess := 30 })],
    maxSizeMB := 1, maxAge := 1000000 }

end TileCacheModel

namespace AdvCacheModel

/-- Cache entry of the advanced tile cache
(interface `TileCacheEntry` in src/hooks/useAdvancedTileCache.ts). -/
structure AdvEntry where
  data : List Char
  timestamp : ℤ
  accessCount : ℕ
  size : ℚ
  priority : ℚ
deriving DecidableEq

/-- State of the hook's cache: the keyed `Map` (insertion order), the tracked
running byte counter `cacheSize.current`, and the configuration. -/
structure AdvState where
  cache : List (List Char × AdvEntry)
  cacheSize : ℚ
  maxSize : ℕ
  maxEntries : ℕ
  maxAge : ℤ
deriving DecidableEq

/-- `getCacheKey(url)`: every character outside `[a-zA-Z0-9]` becomes `_`. -/
def getCacheKey (url : List Char) : List Char :=
  url.map (fun c => if c.isAlphanum then c else '_')

/-- `estimateImageSize(data)`: `data.length * 0.75`. -/
def estimateImageSize (data : List Char) : ℚ :=
  (data.length : ℚ) * 3 / 4

/-- Sum of entry sizes over a list of map entries. -/
def sumQ (l : List (List Char × AdvEntry)) : ℚ :=
  (l.map (fun e => e.2.size)).sum

/-- Eviction score of `cleanup`:
`accessCount * (1 / (now - timestamp)) * priority`. In ℚ the division `1 / 0`
yields 0 whereas the JS source would give `Infinity`; all theorems about
scoring therefore assume `timestamp < now`. -/
def scoreQ (now : ℤ) (e : AdvEntry) : ℚ :=
  (e.accessCount : ℚ) * (1 / ((now : ℚ) - (e.timestamp : ℚ))) * e.priority

/-- Ascending order on the score (the sort comparator
`scoreA - scoreB`). -/
def scoreLe (now : ℤ) (a b : List Char × AdvEntry) : Prop :=
  scoreQ now a.2 ≤ scoreQ now b.2

instance (now : ℤ) : DecidableRel (scoreLe now) := fun a b =>
  inferInstanceAs (Decidable (scoreQ now a.2 ≤ scoreQ now b.2))

instance (now : ℤ) : IsTotal (List Char × AdvEntry) (scoreLe now) :=
  ⟨fun a b => le_total (scoreQ now a.2) (scoreQ now b.2)⟩

instance (now : ℤ) : IsTrans (List Char × AdvEntry) (scoreLe now) :=
  ⟨fun _ _ _ hab hbc => le_trans hab hbc⟩

/-- `cleanup()` of the hook: delete expired entries (decrementing the tracked
counter), then — if still over `maxEntries` or over the byte ceiling — sort
the remaining entries ascending by score and delete the lowest-scoring
`Math.floor(length * 0.3)` of them in one batch, decrementing the counter per
deleted entry. -/
def advCleanup (now : ℤ) (st : AdvState) : AdvState :=
  let expired := st.cache.filter (fun e => decide (st.maxAge < now - e.2.timestamp))
  let expiredKeys := expired.map Prod.fst
  let cache1 := st.cache.filter (fun e => decide (e.1 ∉ expiredKeys))
  let size1 := st.cacheSize - sumQ expired
  if st.maxEntries < cache1.length ∨ (st.maxSize : ℚ) * 1024 * 1024 < size1 then
    let remaining := cache1.filter (fun e => decide (e.1 ∉ expiredKeys))
    let sorted := List.insertionSort (scoreLe now) remaining
    let toDelete := sorted.take (3 * sorted.length / 10)
    { st with
      cache := cache1.filter (fun e => decide (e.1 ∉ toDelete.map Prod.fst)),
      cacheSize := size1 - sumQ toDelete }
  else
    { st with cache := cache1, cacheSize := size1 }

/-- JS `Map.set` for the hook's cache: overwrite in place or append. -/
def advMapSet (m : List (List Char × AdvEntry)) (k : List Char) (v : AdvEntry) :
    List (List Char × AdvEntry) :=
  if m.any (fun e => decide (e.1 = k)) then
    m.map (fun e => if e.1 = k then (k, v) else e)
  else
    m ++ [(k, v)]

/-- `getTile(url)`: miss on an absent key; on a present key that is past
`maxAge`, delete the entry, decrement the tracked counter and miss (lazy
expiry); on a fresh hit, bump `accessCount`, refresh `timestamp` and return
the data. -/
def getTile (now : ℤ) (url : List Char) (st : AdvState) :
    Option (List Char) × AdvState :=
  let key := getCacheKey url
  match st.cache.find? (fun e => decide (e.1 = key)) with
  | none => (none, st)
  | some e =>
    if st.maxAge < now - e.2.timestamp then
      (none, { st with cache := st.cache.eraseP (fun p => decide (p.1 = key)),
                       cacheSize := st.cacheSize - e.2.size })
    else
      (some e.2.data,
       { st with cache := st.cache.map (fun p =>
           if p.1 = key then
             (p.1, { p.2 with accessCount := p.2.accessCount + 1,
                              timestamp := now })
           else p) })

/-- `cacheTile(url, data, priority)`: run `cleanup` first if at the entry
ceiling or if adding `size` would cross the byte ceiling, then store the new
entry and add its size to the tracked counter. Note the overwrite path: the
old entry's size is never subtracted. -/
def cacheTile (now : ℤ) (url data : List Char) (priority : ℚ)
    (st : AdvState) : AdvState :=
  let key := getCacheKey url
  let size := estimateImageSize data
  let st1 :=
    if st.maxEntries ≤ st.cache.length ∨
        (st.maxSize : ℚ) * 1024 * 1024 < st.cacheSize + size then
      advCleanup now st
    else st
  { st1 with
    cache := advMapSet st1.cache key
      { data := data, timestamp := now, accessCount := 1, size := size,
        priority := priority },
    cacheSize := st1.cacheSize + size }

/-- Lookup by key, returning the stored entry. -/
def advFind (st : AdvState) (k : List Char) : Option AdvEntry :=
  (st.cache.find? (fun e => decide (e.1 = k))).map Prod.snd

/-- Hook state with the default configuration
(`maxSize = 100` MB, `maxEntries = 1000`, `maxAge = 30` minutes). -/
def advInit : AdvState :=
  { cache := [], cacheSize := 0, maxSize := 100, maxEntries := 1000,
    maxAge := 1800000 }

/-- Concrete entry: created at time 0, one access, 3 bytes, priority 1. -/
def entryExpiredAdv : AdvEntry :=
  { data := ['d'], timestamp := 0, accessCount := 1, size := 3, priority := 1 }

/-- One-entry hook state with `maxAge = 10` (the entry is expired whenever
`now > 10`). -/
def stExpiredAdv : AdvState :=
  { cache := [(['a'], entryExpiredAdv)], cacheSize := 3, maxSize := 100,
    maxEntries := 1000, maxAge := 10 }

/-- Four fresh entries with pairwise distinct timestamps over an entry
ceiling of 3: the score-based batch eviction must remove
`Math.floor(4 * 0.3) = 1` entry. -/
def stBatch : AdvState :=
  { cache :=
      [(['a'], { data := ['a'], timestamp := 10, accessCount := 1, size := 1,
                 priority := 1 }),
       (['b'], { data := ['b'], timestamp := 20, accessCount := 1, size := 1,
                 priority := 1 }),
       (['c'], { data := ['c'], timestamp := 30, accessCount := 1, size := 1,
                 priority := 1 }),
       (['d'], { data := ['d'], timestamp := 40, accessCount := 1, size := 1,
                 priority := 1 })],
    cacheSize := 4, maxSize := 100, maxEntries := 3, maxAge := 1000 }

/-- Two `cacheTile` calls for the same url: the second overwrites the first
entry while still adding its full size to the tracked counter. -/
def overwriteScenario : AdvState :=
  cacheTile 1 ['a'] ['x', 'x', 'x', 'x'] 1
    (cacheTile 0 ['a'] ['x', 'x', 'x', 'x'] 1 advInit)

end AdvCacheModel

namespace PreloaderModel

/-- Tile key `(zoom, x, y)` of the preloader; the source's string form is
`tile-z-x-y`. -/
abbrev AreaKey : Type := ℕ × ℤ × ℤ

/-- The integer range `[lo, hi]` traversed by the source's `for` loops. -/
def tileRange (lo hi : ℤ) : List ℤ :=
  (List.range (hi + 1 - lo).toNat).map (fun i : ℕ => lo + (i : ℤ))

/-- The tile keys generated for one zoom level around a center tile
(`calculateTilesToPreload` / `preloadTilesAroundCenter` loops): all `(x, y)`
with `cx - radius ≤ x ≤ cx + radius`, `cy - radius ≤ y ≤ cy + radius`, kept
only when `0 ≤ x`, `0 ≤ y`, `x < 2^zoom` and `y < 2^zoom`. -/
def areaTiles (cx cy : ℤ) (zoom : ℕ) (radius : ℤ) : List AreaKey :=
  (tileRange (cx - radius) (cx + radius)).flatMap (fun x =>
    (tileRange (cy - radius) (cy + radius)).filterMap (fun y =>
      if 0 ≤ x ∧ 0 ≤ y ∧ x < 2 ^ zoom ∧ y < 2 ^ zoom then
        some (zoom, x, y)
      else none))

/-- `calculateTilesToPreload`: union of the per-zoom squares. The conversion
of `(latitude, longitude)` to the center tile uses floating-point
trigonometry (`latLonToTile`) and is abstracted as `centerTileOf`. -/
def calculateTilesToPreload (centerTileOf : ℕ → ℤ × ℤ)
    (zoomLevels : List ℕ) (radius : ℤ) : List AreaKey :=
  zoomLevels.flatMap (fun z =>
    areaTiles (centerTileOf z).1 (centerTileOf z).2 z radius)

/-- Cache-and-network state visible to `preloadTilesAroundCenter`: which keys
are cached, and the multiset of network fetches currently in flight. -/
structure PreFetchState where
  cache : List AreaKey
  inFlight : List AreaKey
deriving DecidableEq

/-- One call of `preloadTilesAroundCenter` up to its first suspension point:
it enumerates the square of keys, filters out the keys already cached, and
starts a download for every remaining key (`downloadAndCacheTile` via its own
fresh semaphore — with the default limit 4, every key of a small square
starts at once). There is no check against fetches already in flight. -/
def beginAreaPreload (cx cy : ℤ) (zoom : ℕ) (radius : ℤ)
    (st : PreFetchState) : PreFetchState :=
  { st with inFlight := st.inFlight ++
      (areaTiles cx cy zoom radius).filter (fun k => decide (k ∉ st.cache)) }

/-- Completion of one in-flight fetch: on success the tile enters the cache;
either way the fetch leaves the in-flight multiset. -/
def finishFetch (k : AreaKey) (success : Bool) (st : PreFetchState) :
    PreFetchState :=
  { cache := if success then k :: st.cache else st.cache,
    inFlight := st.inFlight.erase k }

/-- Two overlapping `preloadTilesAroundCenter` calls for the same single
uncached tile (zoom 2, center `(1, 1)`, radius 0), with no fetch completion
in between. -/
def doubleAreaPreload : PreFetchState :=
  beginAreaPreload 1 1 2 0 (beginAreaPreload 1 1 2 0 ⟨[], []⟩)

/-- Outcome of one dequeued download in `processDownloadQueue`:
the download succeeds, fails, or the operation is canceled while the download
is in flight. -/
inductive DLEvent
  | ok
  | fail
  | cancel
deriving DecidableEq

/-- Failures among a list of download outcomes. -/
def countFail (evs : List DLEvent) : ℕ :=
  (evs.filter (fun e => decide (e = DLEvent.fail))).length

/-- Successes among a list of download outcomes. -/
def countOk (evs : List DLEvent) : ℕ :=
  (evs.filter (fun e => decide (e = DLEvent.ok))).length

/-- The `processDownloadQueue` loop: take the first queued tile, download it,
count a success as `loaded++` and a failure as `errors++`. A cancellation
aborts the in-flight download — `downloadAndCacheTile` swallows the
`AbortError`, so the aborted download still counts as loaded — then the loop
observes the aborted signal and stops; `cancelPreloading` has already cleared
the queue, so every tile not yet started is dropped with no counter change. -/
def procQueue : List AreaKey → List DLEvent → ℕ → ℕ → ℕ × ℕ
  | [], _, loaded, errors => (loaded, errors)
  | _ :: rest, evs, loaded, errors =>
    match evs.headD DLEvent.ok with
    | DLEvent.ok => procQueue rest evs.tail (loaded + 1) errors
    | DLEvent.fail => procQueue rest evs.tail loaded (errors + 1)
    | DLEvent.cancel => (loaded + 1, errors)

/-- Progress summary returned by `preloadTilesForRegion`
(interface `PreloadProgress`). -/
structure PreloadProgress where
  total : ℕ
  loaded : ℕ
  errors : ℕ
  progress : ℤ
deriving DecidableEq

/-- `preloadTilesForRegion` after the tile set is computed: filter out cached
tiles, download the rest through the queue, and resolve — never reject — with
the accumulated summary (every download error is caught inside the loop, and
`Promise.all` is wrapped in try/catch). -/
def preloadTilesForRegion (tiles : List AreaKey) (cached : AreaKey → Bool)
    (evs : List DLEvent) : Except (List Char) PreloadProgress :=
  let toDownload := tiles.filter (fun k => !cached k)
  if toDownload.length = 0 then
    Except.ok { total := toDownload.length, loaded := 0, errors := 0,
                progress := 100 }
  else
    let r := procQueue toDownload evs 0 0
    Except.ok { total := toDownload.length, loaded := r.1, errors := r.2,
                progress := TileCacheModel.jsRound
                  ((r.1 : ℚ) / (toDownload.length : ℚ) * 100) }

/-- Stand-in for the source's thrown message
(`Template requis pour le prechargement`, accents and apostrophe elided). -/
def templateErr : List Char :=
  ['T', 'e', 'm', 'p', 'l', 'a', 't', 'e', ' ', 'r', 'e', 'q', 'u', 'i', 's']

/-- `preloadTilesAroundCenter(centerLat, centerLon, zoom, radius, template)`:
throws when no URL template is given, otherwise enumerates the clipped square
of tiles (the subsequent cache filter and downloads operate on this list).
The geographic center-tile conversion is abstracted into `(cx, cy)`. -/
def preloadAroundCenter (cx cy : ℤ) (zoom : ℕ) (radius : ℤ)
    (template : Option (List Char)) : Except (List Char) (List AreaKey) :=
  match template with
  | none => Except.error templateErr
  | some _ => Except.ok (areaTiles cx cy zoom radius)

/-- Consecutive coordinate pairs of a polyline. -/
def consecutivePairs {α : Type} (l : List α) : List (α × α) :=
  l.zip l.tail

/-- `preloadTilesForRoute(coordinates, zoom, corridor, template)`: throws when
no URL template is given; otherwise unions, over every consecutive coordinate
pair, the corridor tiles of the sampled segment points. The per-segment
sampling and meters-per-tile computation use floating-point trigonometry and
are abstracted as `segTiles`; the `Set` union is `eraseDups`. An empty
coordinate list never enters the segment loop. -/
def preloadTilesForRoute (segTiles : (ℚ × ℚ) → (ℚ × ℚ) → List AreaKey)
    (coords : List (ℚ × ℚ)) (template : Option (List Char)) :
    Except (List Char) (List AreaKey) :=
  match template with
  | none => Except.error templateErr
  | some _ =>
    Except.ok
      (((consecutivePairs coords).flatMap (fun p => segTiles p.1 p.2)).eraseDups)

/-- JS `String.prototype.replace` with a plain-string pattern: replace the
first occurrence of `p` (if any) by `r` and return the rest unchanged. -/
def replaceFirst (s p r : List Char) : List Char :=
  match s with
  | [] => []
  | c :: cs =>
    if p.isPrefixOf (c :: cs) then r ++ (c :: cs).drop p.length
    else c :: replaceFirst cs p r

/-- Placeholder `{x}`. -/
def phX : List Char := ['{', 'x', '}']

/-- Placeholder `{y}`. -/
def phY : List Char := ['{', 'y', '}']

/-- Placeholder `{z}`. -/
def phZ : List Char := ['{', 'z', '}']

/-- Placeholder `{s}`. -/
def phS : List Char := ['{', 's', '}']

/-- Decimal digits of a natural number (JS `Number.prototype.toString` for
integer values). -/
def natDigits (n : ℕ) : List Char := Nat.toDigits 10 n

/-- Decimal rendering of an integer. -/
def intDigits (i : ℤ) : List Char :=
  if i < 0 then '-' :: natDigits i.natAbs else natDigits i.natAbs

/-- `buildTileUrl(template, x, y, z)`: chained `replace` calls for `{x}`,
`{y}`, `{z}` and `{s}`; the subdomain is drawn randomly from `a`, `b`, `c`
and is a parameter `sub` here. -/
def buildTileUrl (template : List Char) (x y : ℤ) (z : ℕ) (sub : Char) :
    List Char :=
  replaceFirst
    (replaceFirst
      (replaceFirst
        (replaceFirst template phX (intDigits x))
        phY (intDigits y))
      phZ (natDigits z))
    phS [sub]

/-- Occurrence of `p` in `s` at position `i`. -/
def occursAt (s p : List Char) (i : ℕ) : Prop :=
  p.isPrefixOf (s.drop i) = true

instance (s p : List Char) : DecidablePred (occursAt s p) := fun i =>
  inferInstanceAs (Decidable (p.isPrefixOf (s.drop i) = true))

end PreloaderModel

namespace DownloadModel

/-- Phase of one `downloadTile` invocation: not yet run, owning the network
fetch, polling the cache while another invocation fetches, or finished. -/
inductive Phase
  | idle
  | fetching
  | waiting
  | done
deriving DecidableEq

/-- Shared state of the hook plus the set of concurrent `downloadTile`
invocations (tasks). `cache` holds the sanitized keys with a stored tile,
`active` models `activeRequests.current` (raw urls). -/
structure DState where
  tasks : List (List Char × Phase)
  cache : List (List Char)
  active : List (List Char)
deriving DecidableEq

/-- Scheduler actions: run task `i` up to its next suspension point. -/
inductive DAct
  | start (i : ℕ)
  | fetchOk (i : ℕ)
  | fetchFail (i : ℕ)
  | poll (i : ℕ)

/-- One atomic step of the interleaving. `start` is `downloadTile`'s
synchronous head: check the cache, then check `activeRequests`, and only when
both miss, add the url to `activeRequests` and begin the fetch — there is no
suspension point between the check and the add. `fetchOk`/`fetchFail` finish
the fetch (the `finally` removes the url from `activeRequests`); `poll` is
the waiting branch's `checkCache` timer. -/
def dstep (st : DState) (a : DAct) : DState :=
  match a with
  | DAct.start i =>
    match st.tasks[i]? with
    | some (u, Phase.idle) =>
      if AdvCacheModel.getCacheKey u ∈ st.cache then
        { st with tasks := st.tasks.set i (u, Phase.done) }
      else if u ∈ st.active then
        { st with tasks := st.tasks.set i (u, Phase.waiting) }
      else
        { st with tasks := st.tasks.set i (u, Phase.fetching),
                  active := u :: st.active }
    | _ => st
  | DAct.fetchOk i =>
    match st.tasks[i]? with
    | some (u, Phase.fetching) =>
      { st with tasks := st.tasks.set i (u, Phase.done),
                cache := AdvCacheModel.getCacheKey u :: st.cache,
                active := st.active.erase u }
    | _ => st
  | DAct.fetchFail i =>
    match st.tasks[i]? with
    | some (u, Phase.fetching) =>
      { st with tasks := st.tasks.set i (u, Phase.done),
                active := st.active.erase u }
    | _ => st
  | DAct.poll i =>
    match st.tasks[i]? with
    | some (u, Phase.waiting) =>
      if AdvCacheModel.getCacheKey u ∈ st.cache then
        { st with tasks := st.tasks.set i (u, Phase.done) }
      else st
    | _ => st

/-- Run a sequence of scheduler actions. -/
def drun (st : DState) (acts : List DAct) : DState := acts.foldl dstep st

/-- Initial state: one pending `downloadTile` invocation per url, empty cache,
no active requests. -/
def dinit (urls : List (List Char)) : DState :=
  { tasks := urls.map (fun u => (u, Phase.idle)), cache := [], active := [] }

/-- Urls whose fetch is currently in flight. -/
def fetchingUrls (st : DState) : List (List Char) :=
  (st.tasks.filter (fun t => decide (t.2 = Phase.fetching))).map Prod.fst

/-- Number of in-flight fetches for url `u`. -/
def cntFetch (l : List (List Char × Phase)) (u : List Char) : ℕ :=
  (l.filter (fun t => decide (t.1 = u ∧ t.2 = Phase.fetching))).length

/-- Occurrences of url `u` in a url list. -/
def cntActive (l : List (List Char)) (u : List Char) : ℕ :=
  (l.filter (fun v => decide (v = u))).length

/-- Invariant carried through the induction: `activeRequests` holds no
duplicates, and per url the number of in-flight fetches equals its number of
occurrences in `activeRequests`. -/
def DInv (st : DState) : Prop :=
  st.active.Nodup ∧ ∀ u, cntFetch st.tasks u = cntActive st.active u

end DownloadModel

namespace AssocLemmas

variable {κ ν : Type} [DecidableEq κ]

/-- An entry found by key carries that key. -/
lemma find?_key {l : List (κ × ν)} {k : κ} {p : κ × ν}
    (h : l.find? (fun e => decide (e.1 = k)) = some p) : p.1 = k := by
  have := List.find?_some h
  simpa using this

/-- Updating the value stored at `k` maps the lookup result at `k`. -/
lemma find?_update_self (k : κ) (f : ν → ν) :
    ∀ (l : List (κ × ν)),
      (l.map (fun p => if p.1 = k then (p.1, f p.2) else p)).find?
          (fun e => decide (e.1 = k)) =
        (l.find? (fun e => decide (e.1 = k))).map (fun p => (p.1, f p.2))
  | [] => rfl
  | p :: rest => by
    by_cases hp : p.1 = k
    · rw [List.map_cons, if_pos hp,
        List.find?_cons_of_pos _ (by simp [hp]),
        List.find?_cons_of_pos _ (by simp [hp]),
        Option.map_some']
    · rw [List.map_cons, if_neg hp,
        List.find?_cons_of_neg _ (by simp [hp]),
        List.find?_cons_of_neg _ (by simp [hp])]
      exact find?_update_self k f rest

/-- Updating the value stored at `k` leaves lookups at other keys alone. -/
lemma find?_update_other (k k' : κ) (hne : k' ≠ k) (f : ν → ν) :
    ∀ (l : List (κ × ν)),
      (l.map (fun p => if p.1 = k then (p.1, f p.2) else p)).find?
          (fun e => decide (e.1 = k')) =
        l.find? (fun e => decide (e.1 = k'))
  | [] => rfl
  | p :: rest => by
    by_cases hp : p.1 = k
    · have hp' : ¬ p.1 = k' := fun h => hne (h ▸ hp ▸ rfl)
      rw [List.map_cons, if_pos hp,
        List.find?_cons_of_neg _ (by simp [hp']),
        List.find?_cons_of_neg _ (by simp [hp'])]
      exact find?_update_other k k' hne f rest
    · by_cases hp' : p.1 = k'
      · rw [List.map_cons, if_neg hp,
          List.find?_cons_of_pos _ (by simp [hp']),
          List.find?_cons_of_pos _ (by simp [hp'])]
      · rw [List.map_cons, if_neg hp,
          List.find?_cons_of_neg _ (by simp [hp']),
          List.find?_cons_of_neg _ (by simp [hp'])]
        exact find?_update_other k k' hne f rest

/-- After erasing the entry at `k`, a lookup at `k` misses
(keys are unique). -/
lemma find?_eraseP_self (k : κ) :
    ∀ (l : List (κ × ν)), (l.map Prod.fst).Nodup →
      (l.eraseP (fun e => decide (e.1 = k))).find?
        (fun e => decide (e.1 = k)) = none
  | [], _ => rfl
  | p :: rest, hnd => by
    have hnd' := List.nodup_cons.mp hnd
    by_cases hp : p.1 = k
    · rw [List.eraseP_cons_of_pos (by simp [hp])]
      rw [List.find?_eq_none]
      intro q hq
      simp only [decide_eq_true_eq]
      intro hqk
      exact hnd'.1 (hp ▸ hqk ▸ List.mem_map_of_mem Prod.fst hq)
    · rw [List.eraseP_cons_of_neg (by simp [hp])]
      rw [List.find?_cons_of_neg _ (by simp [hp])]
      exact find?_eraseP_self k rest hnd'.2

/-- Erasing the entry at `k` leaves lookups at other keys alone. -/
lemma find?_eraseP_other (k k' : κ) (hne : k' ≠ k) :
    ∀ (l : List (κ × ν)),
      (l.eraseP (fun e => decide (e.1 = k))).find?
          (fun e => decide (e.1 = k')) =
        l.find? (fun e => decide (e.1 = k'))
  | [] => rfl
  | p :: rest => by
    by_cases hp : p.1 = k
    · have hp' : ¬ p.1 = k' := fun h => hne (h ▸ hp ▸ rfl)
      rw [List.eraseP_cons_of_pos (by simp [hp]),
        List.find?_cons_of_neg _ (by simp [hp'])]
    · rw [List.eraseP_cons_of_neg (by simp [hp])]
      by_cases hp' : p.1 = k'
      · rw [List.find?_cons_of_pos _ (by simp [hp']),
          List.find?_cons_of_pos _ (by simp [hp'])]
      · rw [List.find?_cons_of_neg _ (by simp [hp']),
          List.find?_cons_of_neg _ (by simp [hp'])]
        exact find?_eraseP_other k k' hne rest

omit [DecidableEq κ] in
/-- In a list with unique keys, two members with the same key are equal. -/
lemma eq_of_same_key :
    ∀ (l : List (κ × ν)), (l.map Prod.fst).Nodup →
      ∀ {p q : κ × ν}, p ∈ l → q ∈ l → p.1 = q.1 → p = q
  | [], _, _, _, hp, _, _ => absurd hp (List.not_mem_nil _)
  | a :: rest, hnd, p, q, hp, hq, hk => by
    have hnd' := List.nodup_cons.mp hnd
    rcases List.mem_cons.mp hp with hp1 | hp2
    · rcases List.mem_cons.mp hq with hq1 | hq2
      · rw [hp1, hq1]
      · exfalso
        apply hnd'.1
        rw [hp1] at hk
        exact hk ▸ List.mem_map_of_mem Prod.fst hq2
    · rcases List.mem_cons.mp hq with hq1 | hq2
      · exfalso
        apply hnd'.1
        rw [hq1] at hk
        exact hk ▸ List.mem_map_of_mem Prod.fst hp2
      · exact eq_of_same_key rest hnd'.2 hp2 hq2 hk

end AssocLemmas

/-- C1 (counterexample): in `TileCache`, `get` performs no expiry check. In
`stExpired` the single entry (key `1-1-1`, created at time 0) is far past
`maxAge = 10` at `now = 100`, yet `get` returns the stored payload — not
absent — and a subsequent `has` still reports the key present, contradicting
the claim that an expired key reads as absent and is removed. -/
theorem tileCache_get_serves_expired_entry :
    (TileCacheModel.get 100 1 1 1 TileCacheModel.stExpired).1 = some ['d'] ∧
    TileCacheModel.has 1 1 1
      (TileCacheModel.get 100 1 1 1 TileCacheModel.stExpired).2 = true ∧
    (TileCacheModel.get 100 1 1 1 TileCacheModel.stExpired).1 ≠ none := by
  decide

/-- C1 (amended): in the advanced cache hook, `getTile` lazily expires the
requested key — a present entry past `maxAge` reads as absent, is removed
(with the tracked size counter decremented) and no other key is touched,
while a fresh hit returns the payload, bumps `accessCount` and refreshes the
entry timestamp; `TileCache.get`, by contrast, performs no expiry check: any
present key — expired or not — returns the stored payload with `accessCount`
bumped and `lastAccess` refreshed, and `has` still reports it present. -/
theorem advCache_getTile_lazy_expiry (st : AdvCacheModel.AdvState)
    (url : List Char) (now : ℤ) (e : AdvCacheModel.AdvEntry)
    (hnd : (st.cache.map Prod.fst).Nodup)
    (hfind : AdvCacheModel.advFind st (AdvCacheModel.getCacheKey url) =
      some e) :
    (st.maxAge < now - e.timestamp →
      (AdvCacheModel.getTile now url st).1 = none ∧
      AdvCacheModel.advFind (AdvCacheModel.getTile now url st).2
        (AdvCacheModel.getCacheKey url) = none ∧
      (AdvCacheModel.getTile now url st).2.cacheSize =
        st.cacheSize - e.size ∧
      (∀ k, k ≠ AdvCacheModel.getCacheKey url →
        AdvCacheModel.advFind (AdvCacheModel.getTile now url st).2 k =
          AdvCacheModel.advFind st k)) ∧
    (now - e.timestamp ≤ st.maxAge →
      (AdvCacheModel.getTile now url st).1 = some e.data ∧
      AdvCacheModel.advFind (AdvCacheModel.getTile now url st).2
        (AdvCacheModel.getCacheKey url) =
        some { e with accessCount := e.accessCount + 1, timestamp := now } ∧
      (AdvCacheModel.getTile now url st).2.cacheSize = st.cacheSize ∧
      (∀ k, k ≠ AdvCacheModel.getCacheKey url →
        AdvCacheModel.advFind (AdvCacheModel.getTile now url st).2 k =
          AdvCacheModel.advFind st k)) ∧
    (∀ (stT : TileCacheModel.TCState) (x y z : ℤ)
        (t : TileCacheModel.CachedTile),
      TileCacheModel.tcFind stT (TileCacheModel.getTileKey x y z) = some t →
      (TileCacheModel.get now x y z stT).1 = some t.data ∧
      TileCacheModel.tcFind (TileCacheModel.get now x y z stT).2
        (TileCacheModel.getTileKey x y z) =
        some { t with accessCount := t.accessCount + 1, lastAccess := now } ∧
      TileCacheModel.has x y z (TileCacheModel.get now x y z stT).2 = true) := by
  obtain ⟨p, hp, hpe⟩ := Option.map_eq_some'.mp hfind
  subst hpe
  refine ⟨?_, ?_, ?_⟩
  · intro hexp
    have hgt : AdvCacheModel.getTile now url st =
        (none, { st with
          cache := st.cache.eraseP
            (fun q => decide (q.1 = AdvCacheModel.getCacheKey url)),
          cacheSize := st.cacheSize - p.2.size }) := by
      unfold AdvCacheModel.getTile
      dsimp only
      rw [hp]
      simp only [if_pos hexp]
    rw [hgt]
    refine ⟨rfl, ?_, rfl, ?_⟩
    · unfold AdvCacheModel.advFind
      rw [AssocLemmas.find?_eraseP_self _ _ hnd]
      rfl
    · intro k hk
      unfold AdvCacheModel.advFind
      rw [AssocLemmas.find?_eraseP_other _ _ hk]
  · intro hfresh
    have hgt : AdvCacheModel.getTile now url st =
        (some p.2.data, { st with
          cache := st.cache.map (fun q =>
            if q.1 = AdvCacheModel.getCacheKey url then
              (q.1, { q.2 with accessCount := q.2.accessCount + 1,
                               timestamp := now })
            else q) }) := by
      unfold AdvCacheModel.getTile
      dsimp only
      rw [hp]
      simp only [if_neg (not_lt.mpr hfresh)]
    rw [hgt]
    refine ⟨rfl, ?_, rfl, ?_⟩
    · unfold AdvCacheModel.advFind
      rw [AssocLemmas.find?_update_self
        (AdvCacheModel.getCacheKey url)
        (fun v => { v with accessCount := v.accessCount + 1,
                           timestamp := now }) st.cache, hp]
      rfl
    · intro k hk
      unfold AdvCacheModel.advFind
      rw [AssocLemmas.find?_update_other
        (AdvCacheModel.getCacheKey url) k hk
        (fun v => { v with accessCount := v.accessCount + 1,
                           timestamp := now }) st.cache]
  · intro stT x y z t ht
    obtain ⟨q, hq, hqe⟩ := Option.map_eq_some'.mp ht
    subst hqe
    have hgt : TileCacheModel.get now x y z stT =
        (some q.2.data, { stT with
          cache := stT.cache.map (fun r =>
            if r.1 = TileCacheModel.getTileKey x y z then
              (r.1, { r.2 with accessCount := r.2.accessCount + 1,
                               lastAccess := now })
            else r) }) := by
      unfold TileCacheModel.get
      dsimp only
      rw [hq]
    rw [hgt]
    have hfind2 : (stT.cache.map (fun r =>
        if r.1 = TileCacheModel.getTileKey x y z then
          (r.1, { r.2 with accessCount := r.2.accessCount + 1,
                           lastAccess := now })
        else r)).find?
        (fun r => decide (r.1 = TileCacheModel.getTileKey x y z)) =
        some (q.1, { q.2 with accessCount := q.2.accessCount + 1,
                              lastAccess := now }) := by
      rw [AssocLemmas.find?_update_self
        (TileCacheModel.getTileKey x y z)
        (fun v => { v with accessCount := v.accessCount + 1,
                           lastAccess := now }) stT.cache, hq]
      rfl
    refine ⟨rfl, ?_, ?_⟩
    · unfold TileCacheModel.tcFind
      rw [hfind2]
      rfl
    · unfold TileCacheModel.has
      rw [List.any_eq_true]
      refine ⟨_, List.mem_of_find?_eq_some hfind2, ?_⟩
      have hqk : q.1 = TileCacheModel.getTileKey x y z :=
        AssocLemmas.find?_key hq
      simp [hqk]

/-- C1 (amended, witness): a one-entry hook cache, looked up when the entry
is 100 ms old against `maxAge = 10`. -/
theorem advCache_getTile_lazy_expiry_witness :
    (AdvCacheModel.stExpiredAdv.maxAge < 100 - (0 : ℤ) →
      (AdvCacheModel.getTile 100 ['a'] AdvCacheModel.stExpiredAdv).1 = none ∧
      AdvCacheModel.advFind
        (AdvCacheModel.getTile 100 ['a'] AdvCacheModel.stExpiredAdv).2
        (AdvCacheModel.getCacheKey ['a']) = none ∧
      (AdvCacheModel.getTile 100 ['a'] AdvCacheModel.stExpiredAdv).2.cacheSize =
        AdvCacheModel.stExpiredAdv.cacheSize - 3 ∧
      (∀ k, k ≠ AdvCacheModel.getCacheKey ['a'] →
        AdvCacheModel.advFind
          (AdvCacheModel.getTile 100 ['a'] AdvCacheModel.stExpiredAdv).2 k =
          AdvCacheModel.advFind AdvCacheModel.stExpiredAdv k)) ∧
    (100 - (0 : ℤ) ≤ AdvCacheModel.stExpiredAdv.maxAge →
      (AdvCacheModel.getTile 100 ['a'] AdvCacheModel.stExpiredAdv).1 =
        some ['d'] ∧
      AdvCacheModel.advFind
        (AdvCacheModel.getTile 100 ['a'] AdvCacheModel.stExpiredAdv).2
        (AdvCacheModel.getCacheKey ['a']) =
        some { AdvCacheModel.entryExpiredAdv with
          accessCount := AdvCacheModel.entryExpiredAdv.accessCount + 1,
          timestamp := 100 } ∧
      (AdvCacheModel.getTile 100 ['a'] AdvCacheModel.stExpiredAdv).2.cacheSize =
        AdvCacheModel.stExpiredAdv.cacheSize ∧
      (∀ k, k ≠ AdvCacheModel.getCacheKey ['a'] →
        AdvCacheModel.advFind
          (AdvCacheModel.getTile 100 ['a'] AdvCacheModel.stExpiredAdv).2 k =
          AdvCacheModel.advFind AdvCacheModel.stExpiredAdv k)) ∧
    (∀ (stT : TileCacheModel.TCState) (x y z : ℤ)
        (t : TileCacheModel.CachedTile),
      TileCacheModel.tcFind stT (TileCacheModel.getTileKey x y z) = some t →
      (TileCacheModel.get 100 x y z stT).1 = some t.data ∧
      TileCacheModel.tcFind (TileCacheModel.get 100 x y z stT).2
        (TileCacheModel.getTileKey x y z) =
        some { t with accessCount := t.accessCount + 1, lastAccess := 100 } ∧
      TileCacheModel.has x y z (TileCacheModel.get 100 x y z stT).2 = true) := by
  have h := advCache_getTile_lazy_expiry AdvCacheModel.stExpiredAdv ['a'] 100
    AdvCacheModel.entryExpiredAdv (by decide) (by rfl)
  exact h

/-- C3 (code bug): after two `cacheTile` calls for the same url, the tracked
running counter `cacheSize` holds 6 (two additions of `4 * 0.75 = 3`), while
the single live entry sums to 3: the overwrite path adds the new size without
subtracting the overwritten entry's size, so the claimed equality between the
tracked counter and the sum over live entries fails. -/
theorem advCache_size_counter_drifts_on_overwrite :
    AdvCacheModel.overwriteScenario.cacheSize = 6 ∧
    AdvCacheModel.sumQ AdvCacheModel.overwriteScenario.cache = 3 ∧
    AdvCacheModel.overwriteScenario.cacheSize ≠
      AdvCacheModel.sumQ AdvCacheModel.overwriteScenario.cache := by
  have hA : AdvCacheModel.overwriteScenario.cacheSize = 6 := by
    norm_num [AdvCacheModel.overwriteScenario, AdvCacheModel.cacheTile,
      AdvCacheModel.advInit, AdvCacheModel.advCleanup,
      AdvCacheModel.estimateImageSize, AdvCacheModel.getCacheKey,
      AdvCacheModel.advMapSet, AdvCacheModel.sumQ]
  have hB : AdvCacheModel.sumQ AdvCacheModel.overwriteScenario.cache = 3 := by
    norm_num [AdvCacheModel.overwriteScenario, AdvCacheModel.cacheTile,
      AdvCacheModel.advInit, AdvCacheModel.advCleanup,
      AdvCacheModel.estimateImageSize, AdvCacheModel.getCacheKey,
      AdvCacheModel.advMapSet, AdvCacheModel.sumQ]
  refine ⟨hA, hB, fun h => ?_⟩
  rw [h, hB] at hA
  exact absurd hA (by norm_num)

/-- C4 (counterexample): the claimed scenario — `get` on an absent key, then
`get` on a present key — yields `hitRate = 1` from `getStats`, not the claimed
`1/3`: `getStats` sums `accessCount` into both the hit and the request
counters, so the quotient is 1 whenever any entry exists. -/
theorem tileCache_getStats_scenario_hitRate_one :
    (TileCacheModel.getStats TileCacheModel.statsScenario).hitRate = 1 ∧
    ((1 : ℚ) ≠ 1 / 3) := by
  constructor
  · norm_num [TileCacheModel.getStats, TileCacheModel.statsScenario,
      TileCacheModel.set, TileCacheModel.get, TileCacheModel.stEmpty,
      TileCacheModel.cleanup, TileCacheModel.sweepKeep, TileCacheModel.mapSet,
      TileCacheModel.sumSizes, TileCacheModel.maxBytes,
      TileCacheModel.getTileKey]
  · norm_num

/-- C4 (amended): `getStats` does not keep running hit/miss counters; it
recomputes both `totalHits` and `totalRequests` as the same sum of
`accessCount` over the live entries on every call, so `hitRate` is 1 whenever
that sum is positive and 0 otherwise (misses are never recorded anywhere). -/
theorem tileCache_getStats_hitRate_degenerate (st : TileCacheModel.TCState) :
    (TileCacheModel.getStats st).hitRate =
      if 0 < (st.cache.map (fun e => e.2.accessCount)).sum then 1 else 0 := by
  unfold TileCacheModel.getStats
  dsimp only
  by_cases h : 0 < (st.cache.map (fun e => e.2.accessCount)).sum
  · rw [if_pos (Nat.cast_pos.mpr h), if_pos h,
      div_self (ne_of_gt ((Nat.cast_pos (α := ℚ)).mpr h))]
  · rw [if_neg (fun hq => h (Nat.cast_pos.mp hq)), if_neg h]

namespace TileCacheModel

/-- `sumSizes` distributes over append. -/
lemma sumSizes_append (l₁ l₂ : List (TKey × CachedTile)) :
    sumSizes (l₁ ++ l₂) = sumSizes l₁ + sumSizes l₂ := by
  unfold sumSizes
  rw [List.map_append, List.sum_append]

/-- `sumSizes` is invariant under permutation. -/
lemma sumSizes_perm {l₁ l₂ : List (TKey × CachedTile)} (h : l₁.Perm l₂) :
    sumSizes l₁ = sumSizes l₂ := by
  unfold sumSizes
  exact (h.map (fun e => e.2.size)).sum_eq

/-- The LRU deletion loop deletes the keys of an initial segment of the
sorted list. -/
lemma lruDeleted_take (maxB : ℕ) :
    ∀ (l : List (TKey × CachedTile)) (s : ℕ),
      lruDeleted maxB l s = (l.take (lruDeleted maxB l s).length).map Prod.fst
  | [], _ => rfl
  | e :: rest, s => by
    by_cases h : 5 * (s - e.2.size) ≤ 4 * maxB
    · simp [lruDeleted, h]
    · simp only [lruDeleted, if_neg h, List.length_cons, List.take_succ_cons,
        List.map_cons]
      exact congrArg (e.1 :: ·) (lruDeleted_take maxB rest (s - e.2.size))

/-- The LRU deletion loop never deletes more keys than there are entries. -/
lemma lruDeleted_length_le (maxB : ℕ) :
    ∀ (l : List (TKey × CachedTile)) (s : ℕ),
      (lruDeleted maxB l s).length ≤ l.length
  | [], _ => le_refl _
  | e :: rest, s => by
    by_cases h : 5 * (s - e.2.size) ≤ 4 * maxB
    · simp [lruDeleted, h]
    · simp only [lruDeleted, if_neg h, List.length_cons]
      exact Nat.succ_le_succ (lruDeleted_length_le maxB rest (s - e.2.size))

/-- When the LRU deletion loop stops, either the running total has reached
80% of the byte ceiling, or every entry was deleted. -/
lemma lruDeleted_stop (maxB : ℕ) :
    ∀ (l : List (TKey × CachedTile)) (s : ℕ),
      5 * (s - sumSizes (l.take (lruDeleted maxB l s).length)) ≤ 4 * maxB ∨
        (lruDeleted maxB l s).length = l.length
  | [], s => Or.inr rfl
  | e :: rest, s => by
    by_cases h : 5 * (s - e.2.size) ≤ 4 * maxB
    · left
      simp [lruDeleted, h, sumSizes]
    · rcases lruDeleted_stop maxB rest (s - e.2.size) with hst | hst
      · left
        simp only [lruDeleted, if_neg h, List.length_cons, List.take_succ_cons]
        have : sumSizes (e :: rest.take (lruDeleted maxB rest (s - e.2.size)).length) =
            e.2.size + sumSizes (rest.take (lruDeleted maxB rest (s - e.2.size)).length) := by
          simp [sumSizes]
        rw [this, ← Nat.sub_sub]
        exact hst
      · right
        simp only [lruDeleted, if_neg h, List.length_cons, hst]

/-- Minimality of the LRU deletion loop: before each deletion that was
actually performed, the running total was still strictly above 80% of the
byte ceiling — the loop stops as soon as the threshold is reached. -/
lemma lruDeleted_min (maxB : ℕ) :
    ∀ (l : List (TKey × CachedTile)) (s m : ℕ),
      1 ≤ m → m < (lruDeleted maxB l s).length →
      4 * maxB < 5 * (s - sumSizes (l.take m))
  | [], _, m, _, hlt => by simp [lruDeleted] at hlt
  | e :: rest, s, m, hm, hlt => by
    by_cases h : 5 * (s - e.2.size) ≤ 4 * maxB
    · simp [lruDeleted, h] at hlt
      omega
    · match m, hm with
      | 1, _ =>
        have : sumSizes ((e :: rest).take 1) = e.2.size := by simp [sumSizes]
        rw [this]
        omega
      | k + 2, _ =>
        simp only [lruDeleted, if_neg h, List.length_cons] at hlt
        have hk := lruDeleted_min maxB rest (s - e.2.size) (k + 1)
          (by omega) (by omega)
        simp only [List.take_succ_cons]
        have : sumSizes (e :: rest.take (k + 1)) =
            e.2.size + sumSizes (rest.take (k + 1)) := by simp [sumSizes]
        rw [this, ← Nat.sub_sub]
        exact hk

/-- Removing from the original map the keys of an initial segment of a
permutation of it leaves exactly the remaining segment's total size
(keys are assumed unique). -/
lemma sumSizes_filter_not_in_take (cache sorted : List (TKey × CachedTile))
    (hperm : sorted.Perm cache) (hnd : (cache.map Prod.fst).Nodup) (m : ℕ) :
    sumSizes (cache.filter
      (fun e => decide (e.1 ∉ (sorted.take m).map Prod.fst))) =
      sumSizes (sorted.drop m) := by
  have hnds : (sorted.map Prod.fst).Nodup :=
    ((hperm.map Prod.fst).nodup_iff).mpr hnd
  have h1 : (sorted.filter
        (fun e => decide (e.1 ∉ (sorted.take m).map Prod.fst))).Perm
      (cache.filter (fun e => decide (e.1 ∉ (sorted.take m).map Prod.fst))) :=
    hperm.filter _
  rw [← sumSizes_perm h1]
  have hsplit := List.take_append_drop m sorted
  have hdisj : ((sorted.take m).map Prod.fst).Disjoint
      ((sorted.drop m).map Prod.fst) := by
    apply List.disjoint_of_nodup_append
    rw [← List.map_append, hsplit]
    exact hnds
  have htake : (sorted.take m).filter
      (fun e => decide (e.1 ∉ (sorted.take m).map Prod.fst)) = [] := by
    rw [List.filter_eq_nil_iff]
    intro e he
    simp only [decide_eq_true_eq, not_not]
    exact List.mem_map_of_mem Prod.fst he
  have hdrop : (sorted.drop m).filter
      (fun e => decide (e.1 ∉ (sorted.take m).map Prod.fst)) =
      sorted.drop m := by
    rw [List.filter_eq_self]
    intro e he
    simp only [decide_eq_true_eq]
    intro hin
    exact hdisj hin (List.mem_map_of_mem Prod.fst he)
  calc sumSizes (sorted.filter
        (fun e => decide (e.1 ∉ (sorted.take m).map Prod.fst)))
      = sumSizes ((sorted.take m ++ sorted.drop m).filter
        (fun e => decide (e.1 ∉ (sorted.take m).map Prod.fst))) := by
        rw [hsplit]
    _ = sumSizes (sorted.drop m) := by
        rw [List.filter_append, htake, hdrop, List.nil_append]

/-- After `cleanup`, the total size never exceeds the byte ceiling. -/
lemma cleanup_size_bound (now : ℤ) (st : TCState)
    (hnd : (st.cache.map Prod.fst).Nodup) :
    sumSizes (cleanup now st).cache ≤ maxBytes st := by
  unfold cleanup
  have hndsw : ((sweepKeep now st.maxAge st.cache).map Prod.fst).Nodup :=
    ((List.filter_sublist st.cache).map Prod.fst).nodup hnd
  by_cases h : maxBytes st < sumSizes (sweepKeep now st.maxAge st.cache)
  · rw [if_pos h]
    set swept := sweepKeep now st.maxAge st.cache with hsw
    set sorted := List.insertionSort lastAccessLe swept with hsort
    have hperm : sorted.Perm swept := List.perm_insertionSort _ _
    set n := (lruDeleted (maxBytes st) sorted (sumSizes swept)).length with hn
    have hdel := lruDeleted_take (maxBytes st) sorted (sumSizes swept)
    have hsum : sumSizes (swept.filter
        (fun e => decide
          (e.1 ∉ lruDeleted (maxBytes st) sorted (sumSizes swept)))) =
        sumSizes (sorted.drop n) := by
      rw [hdel]
      exact sumSizes_filter_not_in_take swept sorted hperm hndsw n
    dsimp only
    rw [hsum]
    have htotal : sumSizes swept = sumSizes (sorted.take n) +
        sumSizes (sorted.drop n) := by
      rw [← sumSizes_append, List.take_append_drop]
      exact (sumSizes_perm hperm).symm
    rcases lruDeleted_stop (maxBytes st) sorted (sumSizes swept) with hst | hst
    · rw [← hn] at hst
      omega
    · rw [← hn] at hst
      rw [hst, List.drop_length]
      simp [sumSizes]
  · rw [if_neg h]
    exact not_lt.mp h

/-- `Map.set` preserves key uniqueness. -/
lemma mapSet_nodup (m : List (TKey × CachedTile)) (k : TKey) (v : CachedTile)
    (h : (m.map Prod.fst).Nodup) : ((mapSet m k v).map Prod.fst).Nodup := by
  unfold mapSet
  by_cases hmem : m.any (fun e => decide (e.1 = k)) = true
  · rw [if_pos hmem]
    have heq : (m.map (fun e => if e.1 = k then (k, v) else e)).map Prod.fst =
        m.map Prod.fst := by
      rw [List.map_map]
      apply List.map_congr_left
      intro e _
      by_cases he : e.1 = k
      · simp [he]
      · simp [he]
    rw [heq]
    exact h
  · rw [if_neg hmem]
    rw [List.map_append]
    rw [List.nodup_append]
    refine ⟨h, List.nodup_singleton k, ?_⟩
    intro a ha hb
    simp only [List.map_cons, List.map_nil, List.mem_singleton] at hb
    subst hb
    rcases List.mem_map.mp ha with ⟨e, he, hek⟩
    exact hmem (List.any_eq_true.mpr ⟨e, he, by simp [hek]⟩)

end TileCacheModel

/-- C2: every `set` call ends with the `cleanup` pass, after which the cache's
total size in bytes is at most `maxSizeBytes` (the eviction loop deletes LRU
entries until the running total reaches 80% of the ceiling, or the cache is
emptied); moreover the eviction loop stops exactly when the running total
first drops to or below 80% of the byte ceiling — when it stops early the
threshold holds, and before every deletion it actually performed the total
was still strictly above the threshold. -/
theorem tileCache_set_respects_byte_ceiling (st : TileCacheModel.TCState)
    (tile : TileCacheModel.TileInfo) (data : List Char) (now : ℤ)
    (hnd : (st.cache.map Prod.fst).Nodup) :
    TileCacheModel.sumSizes (TileCacheModel.set now tile data st).cache ≤
      TileCacheModel.maxBytes st ∧
    (∀ (l : List (TileCacheModel.TKey × TileCacheModel.CachedTile)) (s : ℕ),
      5 * (s - TileCacheModel.sumSizes
          (l.take (TileCacheModel.lruDeleted
            (TileCacheModel.maxBytes st) l s).length)) ≤
        4 * TileCacheModel.maxBytes st ∨
      (TileCacheModel.lruDeleted (TileCacheModel.maxBytes st) l s).length =
        l.length) ∧
    (∀ (l : List (TileCacheModel.TKey × TileCacheModel.CachedTile)) (s m : ℕ),
      1 ≤ m →
      m < (TileCacheModel.lruDeleted (TileCacheModel.maxBytes st) l s).length →
      4 * TileCacheModel.maxBytes st <
        5 * (s - TileCacheModel.sumSizes (l.take m))) := by
  refine ⟨?_, fun l s => TileCacheModel.lruDeleted_stop _ l s,
    fun l s m hm hlt => TileCacheModel.lruDeleted_min _ l s m hm hlt⟩
  unfold TileCacheModel.set
  exact TileCacheModel.cleanup_size_bound now _
    (TileCacheModel.mapSet_nodup st.cache _ _ hnd)

/-- C2 (witness): the ceiling bound and the hysteresis facts instantiated on
the concrete over-budget state: inserting a fourth tile into three 400000-byte
entries under a 1 MB ceiling. -/
theorem tileCache_set_respects_byte_ceiling_witness :
    TileCacheModel.sumSizes
        (TileCacheModel.set 100
          { x := 5, y := 5, z := 5, url := ['u'] } ['a']
          TileCacheModel.stOverBudget).cache ≤
      TileCacheModel.maxBytes TileCacheModel.stOverBudget ∧
    (∀ (l : List (TileCacheModel.TKey × TileCacheModel.CachedTile)) (s : ℕ),
      5 * (s - TileCacheModel.sumSizes
          (l.take (TileCacheModel.lruDeleted
            (TileCacheModel.maxBytes TileCacheModel.stOverBudget) l s).length)) ≤
        4 * TileCacheModel.maxBytes TileCacheModel.stOverBudget ∨
      (TileCacheModel.lruDeleted
        (TileCacheModel.maxBytes TileCacheModel.stOverBudget) l s).length =
        l.length) ∧
    (∀ (l : List (TileCacheModel.TKey × TileCacheModel.CachedTile)) (s m : ℕ),
      1 ≤ m →
      m < (TileCacheModel.lruDeleted
        (TileCacheModel.maxBytes TileCacheModel.stOverBudget) l s).length →
      4 * TileCacheModel.maxBytes TileCacheModel.stOverBudget <
        5 * (s - TileCacheModel.sumSizes (l.take m))) :=
  tileCache_set_respects_byte_ceiling TileCacheModel.stOverBudget
    { x := 5, y := 5, z := 5, url := ['u'] } ['a'] 100 (by decide)

/-- C5 (counterexample): on `stOverBudget` (three fresh 400000-byte entries
against a 1 MB ceiling) the source's `cleanup` deletes entries one at a time
in ascending `lastAccess` order until the 80% threshold, leaving 2 entries,
whereas the batch eviction described by the claim would remove the
lowest-scoring `Math.floor(3 * 0.3) = 0` entries and leave all 3: the code's
eviction is not the claimed sort-and-drop-30% batch. -/
theorem tileCache_cleanup_is_not_batch_eviction :
    (TileCacheModel.cleanup 100 TileCacheModel.stOverBudget).cache.length = 2 ∧
    (TileCacheModel.specBatchEviction 100
        TileCacheModel.stOverBudget).cache.length = 3 ∧
    TileCacheModel.cleanup 100 TileCacheModel.stOverBudget ≠
      TileCacheModel.specBatchEviction 100 TileCacheModel.stOverBudget := by
  have hA :
      (TileCacheModel.cleanup 100 TileCacheModel.stOverBudget).cache.length = 2 := by
    decide
  have hB :
      (TileCacheModel.specBatchEviction 100
        TileCacheModel.stOverBudget).cache.length = 3 := by
    norm_num [TileCacheModel.specBatchEviction, TileCacheModel.stOverBudget,
      TileCacheModel.sweepKeep, TileCacheModel.sumSizes, TileCacheModel.maxBytes,
      TileCacheModel.specScoreLe, TileCacheModel.specScoreTC,
      List.insertionSort, List.orderedInsert]
  refine ⟨hA, hB, fun h => ?_⟩
  rw [h, hB] at hA
  exact absurd hA (by norm_num)

namespace AdvCacheModel

/-- Strict monotonicity of the eviction score: with equal positive priority,
an entry with no larger `accessCount` and a strictly older timestamp scores
strictly lower (both entries older than `now`). -/
lemma scoreQ_lt (now : ℤ) (a b : AdvEntry)
    (h1 : 1 ≤ a.accessCount) (h2 : a.accessCount ≤ b.accessCount)
    (h3 : a.timestamp < b.timestamp) (h4 : b.timestamp < now)
    (h5 : a.priority = b.priority) (h6 : 0 < a.priority) :
    scoreQ now a < scoreQ now b := by
  unfold scoreQ
  rw [← h5]
  have htb : (0 : ℚ) < (now : ℚ) - (b.timestamp : ℚ) := by
    have : (b.timestamp : ℚ) < (now : ℚ) := by exact_mod_cast h4
    linarith
  have hBA : (now : ℚ) - (b.timestamp : ℚ) < (now : ℚ) - (a.timestamp : ℚ) := by
    have : (a.timestamp : ℚ) < (b.timestamp : ℚ) := by exact_mod_cast h3
    linarith
  have hinv : 1 / ((now : ℚ) - (a.timestamp : ℚ)) <
      1 / ((now : ℚ) - (b.timestamp : ℚ)) :=
    one_div_lt_one_div_of_lt htb hBA
  have hacpos : (0 : ℚ) < (a.accessCount : ℚ) := by
    exact_mod_cast Nat.lt_of_lt_of_le Nat.zero_lt_one h1
  have hinvb : (0 : ℚ) < 1 / ((now : ℚ) - (b.timestamp : ℚ)) :=
    one_div_pos.mpr htb
  have hcast2 : (a.accessCount : ℚ) ≤ (b.accessCount : ℚ) := by
    exact_mod_cast h2
  calc (a.accessCount : ℚ) * (1 / ((now : ℚ) - (a.timestamp : ℚ))) * a.priority
      < (a.accessCount : ℚ) * (1 / ((now : ℚ) - (b.timestamp : ℚ))) *
          a.priority :=
        mul_lt_mul_of_pos_right (mul_lt_mul_of_pos_left hinv hacpos) h6
    _ ≤ (b.accessCount : ℚ) * (1 / ((now : ℚ) - (b.timestamp : ℚ))) *
          a.priority :=
        mul_le_mul_of_nonneg_right
          (mul_le_mul_of_nonneg_right hcast2 (le_of_lt hinvb)) (le_of_lt h6)

end AdvCacheModel

/-- C5 (amended): the advanced cache hook's `cleanup` implements the claimed
batch eviction. When every entry is fresh and the cache is over `maxEntries`
or over the byte ceiling, the surviving entries are exactly those whose key is
not among the first `Math.floor(0.3 · n)` of the entries sorted ascending by
`accessCount × priority / (now − timestamp)`; and the evicted set is closed
downward under the score order in the claimed sense — an entry with
`accessCount` no larger, priority equal and strictly older last-access
timestamp than an evicted entry is itself evicted. -/
theorem advCleanup_scored_batch_eviction (st : AdvCacheModel.AdvState)
    (now : ℤ) (hnd : (st.cache.map Prod.fst).Nodup)
    (hfresh : ∀ p ∈ st.cache, now - p.2.timestamp ≤ st.maxAge)
    (hover : st.maxEntries < st.cache.length ∨
      (st.maxSize : ℚ) * 1024 * 1024 < st.cacheSize) :
    (AdvCacheModel.advCleanup now st).cache =
      st.cache.filter (fun p => decide (p.1 ∉
        ((List.insertionSort (AdvCacheModel.scoreLe now) st.cache).take
          (3 * st.cache.length / 10)).map Prod.fst)) ∧
    (∀ a b, a ∈ st.cache → b ∈ st.cache →
      1 ≤ a.2.accessCount → a.2.accessCount ≤ b.2.accessCount →
      a.2.timestamp < b.2.timestamp → b.2.timestamp < now →
      a.2.priority = b.2.priority → 0 < a.2.priority →
      b.1 ∈ ((List.insertionSort (AdvCacheModel.scoreLe now) st.cache).take
          (3 * st.cache.length / 10)).map Prod.fst →
      a.1 ∈ ((List.insertionSort (AdvCacheModel.scoreLe now) st.cache).take
          (3 * st.cache.length / 10)).map Prod.fst) := by
  have hlen : (List.insertionSort (AdvCacheModel.scoreLe now) st.cache).length =
      st.cache.length :=
    (List.perm_insertionSort (AdvCacheModel.scoreLe now) st.cache).length_eq
  constructor
  · have hexp : st.cache.filter
        (fun p => decide (st.maxAge < now - p.2.timestamp)) = [] := by
      rw [List.filter_eq_nil_iff]
      intro p hp
      simp only [decide_eq_true_eq, not_lt]
      exact hfresh p hp
    have hfilnil : ∀ (l : List (List Char × AdvCacheModel.AdvEntry)),
        l.filter (fun p => decide (p.1 ∉
          ([] : List (List Char × AdvCacheModel.AdvEntry)).map Prod.fst))
          = l := by
      intro l
      rw [List.filter_eq_self]
      intro p _
      simp
    unfold AdvCacheModel.advCleanup
    dsimp only
    rw [hexp]
    rw [hfilnil st.cache]
    have hcond : st.maxEntries < st.cache.length ∨
        (st.maxSize : ℚ) * 1024 * 1024 <
          st.cacheSize - AdvCacheModel.sumQ [] := by
      rcases hover with h | h
      · exact Or.inl h
      · refine Or.inr ?_
        simpa [AdvCacheModel.sumQ] using h
    rw [if_pos hcond, hfilnil st.cache, hlen]
  · intro a b ha hb h1 h2 h3 h4 h5 h6 hbmem
    have hperm := List.perm_insertionSort (AdvCacheModel.scoreLe now) st.cache
    have hsorted := List.sorted_insertionSort (AdvCacheModel.scoreLe now)
      st.cache
    obtain ⟨b', hb't, hb'k⟩ := List.mem_map.mp hbmem
    have hb'mem : b' ∈ st.cache :=
      hperm.mem_iff.mp (List.mem_of_mem_take hb't)
    have hb'b : b' = b := AssocLemmas.eq_of_same_key st.cache hnd hb'mem hb hb'k
    rw [hb'b] at hb't
    have has : a ∈ List.insertionSort (AdvCacheModel.scoreLe now) st.cache :=
      hperm.mem_iff.mpr ha
    rw [← List.take_append_drop (3 * st.cache.length / 10)
      (List.insertionSort (AdvCacheModel.scoreLe now) st.cache)] at has
    rcases List.mem_append.mp has with hatake | hadrop
    · exact List.mem_map_of_mem Prod.fst hatake
    · exfalso
      have hstrict : AdvCacheModel.scoreQ now a.2 < AdvCacheModel.scoreQ now b.2 :=
        AdvCacheModel.scoreQ_lt now a.2 b.2 h1 h2 h3 h4 h5 h6
      have hpw : List.Pairwise (AdvCacheModel.scoreLe now)
          (List.insertionSort (AdvCacheModel.scoreLe now) st.cache) := hsorted
      rw [← List.take_append_drop (3 * st.cache.length / 10)
        (List.insertionSort (AdvCacheModel.scoreLe now) st.cache)] at hpw
      have hba := (List.pairwise_append.mp hpw).2.2 b hb't a hadrop
      exact absurd hba (not_le.mpr hstrict)

/-- C5 (amended, witness): on four fresh one-access entries over an entry
ceiling of 3, the batch-eviction characterization and the evicted-first
ordering, instantiated. -/
theorem advCleanup_scored_batch_eviction_witness :
    (AdvCacheModel.advCleanup 100 AdvCacheModel.stBatch).cache =
      AdvCacheModel.stBatch.cache.filter (fun p => decide (p.1 ∉
        ((List.insertionSort (AdvCacheModel.scoreLe 100)
            AdvCacheModel.stBatch.cache).take
          (3 * AdvCacheModel.stBatch.cache.length / 10)).map Prod.fst)) ∧
    (∀ a b, a ∈ AdvCacheModel.stBatch.cache → b ∈ AdvCacheModel.stBatch.cache →
      1 ≤ a.2.accessCount → a.2.accessCount ≤ b.2.accessCount →
      a.2.timestamp < b.2.timestamp → b.2.timestamp < 100 →
      a.2.priority = b.2.priority → 0 < a.2.priority →
      b.1 ∈ ((List.insertionSort (AdvCacheModel.scoreLe 100)
          AdvCacheModel.stBatch.cache).take
          (3 * AdvCacheModel.stBatch.cache.length / 10)).map Prod.fst →
      a.1 ∈ ((List.insertionSort (AdvCacheModel.scoreLe 100)
          AdvCacheModel.stBatch.cache).take
          (3 * AdvCacheModel.stBatch.cache.length / 10)).map Prod.fst) :=
  advCleanup_scored_batch_eviction AdvCacheModel.stBatch 100
    (by decide) (by decide) (Or.inl (by decide))

/-- C7 (counterexample): two overlapping `preloadTilesAroundCenter` calls for
the same single uncached tile key `(2, 1, 1)` — the second issued before the
first call's fetch completes — each start their own download, so two network
fetches for the same key are in flight at a reachable point. -/
theorem preloader_double_fetch_same_key :
    PreloaderModel.doubleAreaPreload.inFlight.count ((2, 1, 1) : PreloaderModel.AreaKey) = 2 ∧
    ¬ PreloaderModel.doubleAreaPreload.inFlight.Nodup := by
  decide

namespace PreloaderModel

/-- Characterization of the loop range. -/
lemma mem_tileRange {lo hi a : ℤ} : a ∈ tileRange lo hi ↔ lo ≤ a ∧ a ≤ hi := by
  unfold tileRange
  simp only [List.mem_map, List.mem_range]
  constructor
  · rintro ⟨i, hi', rfl⟩
    constructor
    · omega
    · omega
  · rintro ⟨h1, h2⟩
    refine ⟨(a - lo).toNat, by omega, by omega⟩

/-- Length of the loop range. -/
lemma length_tileRange (lo hi : ℤ) :
    (tileRange lo hi).length = (hi + 1 - lo).toNat := by
  unfold tileRange
  rw [List.length_map, List.length_range]

/-- A `filterMap` whose guard holds on every element is a `map`. -/
lemma filterMap_if_all {α β : Type} {P : α → Prop} [DecidablePred P]
    {f : α → β} :
    ∀ {l : List α}, (∀ a ∈ l, P a) →
      (l.filterMap (fun a => if P a then some (f a) else none)) = l.map f
  | [], _ => rfl
  | a :: rest, h => by
    have ha : P a := h a (List.mem_cons_self a rest)
    simp only [List.filterMap_cons, if_pos ha, List.map_cons]
    exact congrArg (f a :: ·) (filterMap_if_all (fun b hb => h b (List.mem_cons_of_mem a hb)))

/-- Sum of a constant map. -/
lemma sum_map_const {α : Type} (c : ℕ) :
    ∀ (l : List α), (l.map (fun _ => c)).sum = l.length * c
  | [] => by simp
  | a :: rest => by
    simp only [List.map_cons, List.sum_cons, List.length_cons, sum_map_const c rest]
    ring

/-- Successes and failures account for every outcome of a cancel-free run. -/
lemma countOk_add_countFail :
    ∀ (l : List DLEvent), DLEvent.cancel ∉ l →
      countOk l + countFail l = l.length
  | [], _ => rfl
  | e :: rest, h => by
    have hrest := countOk_add_countFail rest (fun hm => h (List.mem_cons_of_mem e hm))
    have he : e ≠ DLEvent.cancel := fun hc => h (hc ▸ List.mem_cons_self e rest)
    cases e with
    | ok => simp [countOk, countFail, List.filter_cons] at hrest ⊢; omega
    | fail => simp [countOk, countFail, List.filter_cons] at hrest ⊢; omega
    | cancel => exact absurd rfl he

/-- Behaviour of `processDownloadQueue` when the operation is canceled while
download number `k` (0-based) is in flight: the downloads before it each count
once — as a success or as a failure — the aborted one counts as loaded, and
the loop then stops, leaving every later queued tile uncounted. -/
lemma procQueue_cancel_spec :
    ∀ (k : ℕ) (queue : List AreaKey) (evs : List DLEvent) (L E : ℕ),
      k < queue.length →
      evs[k]? = some DLEvent.cancel →
      (∀ j, j < k → evs[j]? ≠ some DLEvent.cancel) →
      procQueue queue evs L E =
        (L + countOk (evs.take k) + 1, E + countFail (evs.take k))
  | 0, queue, evs, L, E, hk, hc, _ => by
    match queue, hk with
    | q :: rest, _ =>
      match evs with
      | [] => simp at hc
      | e :: evs' =>
        have he : e = DLEvent.cancel := by simpa using hc
        subst he
        simp [procQueue, countOk, countFail]
  | k + 1, queue, evs, L, E, hk, hc, hnc => by
    match queue, hk with
    | q :: rest, hk =>
      have hkr : k < rest.length := by
        simp only [List.length_cons] at hk
        omega
      match evs with
      | [] => simp at hc
      | e :: evs' =>
        have he : e ≠ DLEvent.cancel := by
          intro hce
          exact hnc 0 (by omega) (by simp [hce])
        have hc' : evs'[k]? = some DLEvent.cancel := by
          simpa using hc
        have hnc' : ∀ j, j < k → evs'[j]? ≠ some DLEvent.cancel := by
          intro j hj
          have := hnc (j + 1) (by omega)
          simpa using this
        cases e with
        | ok =>
          have ih := procQueue_cancel_spec k rest evs' (L + 1) E hkr hc' hnc'
          simp only [procQueue, List.headD_cons, List.tail_cons, ih,
            List.take_succ_cons, countOk, countFail, List.filter_cons]
          simp
          omega
        | fail =>
          have ih := procQueue_cancel_spec k rest evs' L (E + 1) hkr hc' hnc'
          simp only [procQueue, List.headD_cons, List.tail_cons, ih,
            List.take_succ_cons, countOk, countFail, List.filter_cons]
          simp
          omega
        | cancel => exact absurd rfl he

end PreloaderModel

namespace PreloaderModel

/-- `flatMap` respects pointwise equality on members. -/
lemma flatMap_congr {α β : Type} {f g : α → List β} :
    ∀ {l : List α}, (∀ a ∈ l, f a = g a) → l.flatMap f = l.flatMap g
  | [], _ => rfl
  | a :: rest, h => by
    simp only [List.flatMap_cons]
    rw [h a (List.mem_cons_self a rest),
      flatMap_congr (fun b hb => h b (List.mem_cons_of_mem a hb))]

end PreloaderModel

/-- C6: the area tile enumeration produces exactly the square of keys within
Chebyshev distance `radius` of the center tile at the given zoom, clipped to
the valid index range `0 ≤ x, y ≤ 2^zoom − 1`; and when the square does not
touch the grid border, it has exactly `(2·radius+1)²` keys (before the
cache-presence filtering, which happens afterwards). -/
theorem preloader_areaTiles_square_clipped (cx cy : ℤ) (zoom : ℕ)
    (radius : ℤ) :
    (∀ z x y, ((z, x, y) : PreloaderModel.AreaKey) ∈
        PreloaderModel.areaTiles cx cy zoom radius ↔
      (z = zoom ∧ cx - radius ≤ x ∧ x ≤ cx + radius ∧
        cy - radius ≤ y ∧ y ≤ cy + radius ∧
        0 ≤ x ∧ x ≤ 2 ^ zoom - 1 ∧ 0 ≤ y ∧ y ≤ 2 ^ zoom - 1)) ∧
    (0 ≤ cx - radius → cx + radius ≤ 2 ^ zoom - 1 →
      0 ≤ cy - radius → cy + radius ≤ 2 ^ zoom - 1 →
      (PreloaderModel.areaTiles cx cy zoom radius).length =
        ((2 * radius + 1).toNat) ^ 2) := by
  have hpos : (0 : ℤ) < 2 ^ zoom := by positivity
  constructor
  · intro z x y
    unfold PreloaderModel.areaTiles
    simp only [List.mem_flatMap, List.mem_filterMap,
      PreloaderModel.mem_tileRange, Option.ite_none_right_eq_some,
      Option.some.injEq, Prod.mk.injEq]
    constructor
    · rintro ⟨x', ⟨hx1, hx2⟩, y', ⟨hy1, hy2⟩, ⟨c1, c2, c3, c4⟩, hz, hx, hy⟩
      subst hz hx hy
      refine ⟨rfl, hx1, hx2, hy1, hy2, c1, by omega, c2, by omega⟩
    · rintro ⟨hz, hx1, hx2, hy1, hy2, c1, c2, c3, c4⟩
      subst hz
      exact ⟨x, ⟨hx1, hx2⟩, y, ⟨hy1, hy2⟩, ⟨c1, c3, by omega, by omega⟩,
        rfl, rfl, rfl⟩
  · intro h1 h2 h3 h4
    have heq : PreloaderModel.areaTiles cx cy zoom radius =
        (PreloaderModel.tileRange (cx - radius) (cx + radius)).flatMap
          (fun x => (PreloaderModel.tileRange (cy - radius) (cy + radius)).map
            (fun y => ((zoom, x, y) : PreloaderModel.AreaKey))) := by
      unfold PreloaderModel.areaTiles
      apply PreloaderModel.flatMap_congr
      intro x hx
      rw [PreloaderModel.mem_tileRange] at hx
      apply PreloaderModel.filterMap_if_all
      intro y hy
      rw [PreloaderModel.mem_tileRange] at hy
      refine ⟨by omega, by omega, by omega, by omega⟩
    rw [heq, List.length_flatMap]
    have hconst : (PreloaderModel.tileRange (cx - radius) (cx + radius)).map
        (List.length ∘ fun x =>
          (PreloaderModel.tileRange (cy - radius) (cy + radius)).map
            (fun y => ((zoom, x, y) : PreloaderModel.AreaKey))) =
        (PreloaderModel.tileRange (cx - radius) (cx + radius)).map
          (fun _ => (2 * radius + 1).toNat) := by
      apply List.map_congr_left
      intro x _
      simp only [Function.comp_apply, List.length_map,
        PreloaderModel.length_tileRange]
      omega
    rw [hconst, PreloaderModel.sum_map_const,
      PreloaderModel.length_tileRange, pow_two]
    have : (cx + radius + 1 - (cx - radius)).toNat = (2 * radius + 1).toNat := by
      omega
    rw [this]

/-- C6 (witness): at the center tile `(2074, 1409)` — the tile of
`(48.8566, 2.3522)` at zoom 12 — with radius 2, exactly `(2·2+1)² = 25`
candidate keys are generated. -/
theorem preloader_areaTiles_square_clipped_witness :
    (PreloaderModel.areaTiles 2074 1409 12 2).length = 25 := by
  have h := (preloader_areaTiles_square_clipped 2074 1409 12 2).2
    (by norm_num) (by norm_num) (by norm_num) (by norm_num)
  rw [h]
  rfl

/-- C8: cancellation mid-batch is a normal completion path. If the operation
is canceled while download `k` is in flight (`k` strictly below the number of
uncached tiles), `preloadTilesForRegion` still resolves — `Except.ok`, never
an error — with the partial summary: `errors` counts exactly the downloads
that were started and failed before the cancellation, the canceled in-flight
download is absorbed as loaded, and the `total − (k+1)` tiles still queued
but never started are dropped without touching either counter
(`loaded + errors = k + 1`). -/
theorem preload_cancellation_resolves_partial
    (tiles : List PreloaderModel.AreaKey)
    (cached : PreloaderModel.AreaKey → Bool)
    (evs : List PreloaderModel.DLEvent) (k : ℕ)
    (hk : k < (tiles.filter (fun t => !cached t)).length)
    (hc : evs[k]? = some PreloaderModel.DLEvent.cancel)
    (hnc : ∀ j, j < k → evs[j]? ≠ some PreloaderModel.DLEvent.cancel) :
    ∃ p : PreloaderModel.PreloadProgress,
      PreloaderModel.preloadTilesForRegion tiles cached evs = Except.ok p ∧
      p.total = (tiles.filter (fun t => !cached t)).length ∧
      p.errors = PreloaderModel.countFail (evs.take k) ∧
      p.loaded = PreloaderModel.countOk (evs.take k) + 1 ∧
      p.loaded + p.errors = k + 1 := by
  have hrun := PreloaderModel.procQueue_cancel_spec k
    (tiles.filter (fun t => !cached t)) evs 0 0 hk hc hnc
  have hklen : k < evs.length := by
    by_contra hge
    rw [List.getElem?_eq_none (by omega)] at hc
    exact Option.noConfusion hc
  have htklen : (evs.take k).length = k := by
    rw [List.length_take]
    omega
  have hnomem : PreloaderModel.DLEvent.cancel ∉ evs.take k := by
    intro hmem
    rcases List.mem_iff_getElem?.mp hmem with ⟨j, hj⟩
    rw [List.getElem?_take] at hj
    by_cases hjk : j < k
    · rw [if_pos hjk] at hj
      exact hnc j hjk hj
    · rw [if_neg hjk] at hj
      exact Option.noConfusion hj
  have hcount := PreloaderModel.countOk_add_countFail (evs.take k) hnomem
  unfold PreloaderModel.preloadTilesForRegion
  have hlen0 : ¬ ((tiles.filter (fun t => !cached t)).length = 0) := by omega
  rw [if_neg hlen0]
  refine ⟨_, rfl, rfl, ?_, ?_, ?_⟩
  · rw [hrun]
    simp
  · rw [hrun]
    simp
  · rw [hrun]
    simp only []
    omega

/-- C8 (witness): three uncached tiles, first download succeeds, cancellation
arrives during the second: the batch resolves with `loaded = 2`, `errors = 0`,
and the third tile is dropped uncounted. -/
theorem preload_cancellation_resolves_partial_witness :
    ∃ p : PreloaderModel.PreloadProgress,
      PreloaderModel.preloadTilesForRegion
          [(1, 0, 0), (1, 0, 1), (1, 1, 0)] (fun _ => false)
          [PreloaderModel.DLEvent.ok, PreloaderModel.DLEvent.cancel] =
        Except.ok p ∧
      p.total = ([((1 : ℕ), (0 : ℤ), (0 : ℤ)), (1, 0, 1), (1, 1, 0)].filter
        (fun _ => !false)).length ∧
      p.errors = PreloaderModel.countFail
        ([PreloaderModel.DLEvent.ok, PreloaderModel.DLEvent.cancel].take 1) ∧
      p.loaded = PreloaderModel.countOk
        ([PreloaderModel.DLEvent.ok, PreloaderModel.DLEvent.cancel].take 1) + 1 ∧
      p.loaded + p.errors = 1 + 1 :=
  preload_cancellation_resolves_partial
    [(1, 0, 0), (1, 0, 1), (1, 1, 0)] (fun _ => false)
    [PreloaderModel.DLEvent.ok, PreloaderModel.DLEvent.cancel] 1
    (by decide) (by decide)
    (fun j hj => by
      have hj0 : j = 0 := by omega
      subst hj0
      decide)

/-- C9 (amended): the only fail-fast validation in the preloader is the
missing URL template. With a template present, route preloading with an empty
coordinate list resolves with an empty tile set (the segment loop never
runs), and area preloading with a negative radius resolves with an empty tile
set (both loop ranges are empty) — neither throws. -/
theorem preloader_no_input_validation :
    (∀ (segTiles : (ℚ × ℚ) → (ℚ × ℚ) → List PreloaderModel.AreaKey)
        (t : List Char),
      PreloaderModel.preloadTilesForRoute segTiles [] (some t) =
        Except.ok []) ∧
    (∀ segTiles coords,
      PreloaderModel.preloadTilesForRoute segTiles coords none =
        Except.error PreloaderModel.templateErr) ∧
    (∀ (cx cy : ℤ) (zoom : ℕ) (r : ℤ) (t : List Char), r < 0 →
      PreloaderModel.preloadAroundCenter cx cy zoom r (some t) =
        Except.ok []) ∧
    (∀ (cx cy : ℤ) (zoom : ℕ) (r : ℤ),
      PreloaderModel.preloadAroundCenter cx cy zoom r none =
        Except.error PreloaderModel.templateErr) := by
  refine ⟨fun segTiles t => rfl, fun segTiles coords => rfl, ?_,
    fun cx cy zoom r => rfl⟩
  intro cx cy zoom r t hr
  have h0 : (cx + r + 1 - (cx - r)).toNat = 0 := by omega
  simp [PreloaderModel.preloadAroundCenter, PreloaderModel.areaTiles,
    PreloaderModel.tileRange, h0]

/-- C9 (amended, witness): the no-validation behaviour at concrete inputs,
radius `-1` for the area case. -/
theorem preloader_no_input_validation_witness :
    PreloaderModel.preloadTilesForRoute (fun _ _ => []) [] (some ['u']) =
      Except.ok [] ∧
    PreloaderModel.preloadTilesForRoute (fun _ _ => []) [((0 : ℚ), (0 : ℚ))]
      none = Except.error PreloaderModel.templateErr ∧
    PreloaderModel.preloadAroundCenter 5 5 3 (-1) (some ['u']) =
      Except.ok [] ∧
    PreloaderModel.preloadAroundCenter 5 5 3 (-1) none =
      Except.error PreloaderModel.templateErr :=
  ⟨preloader_no_input_validation.1 (fun _ _ => []) ['u'],
   preloader_no_input_validation.2.1 (fun _ _ => []) [((0 : ℚ), (0 : ℚ))],
   preloader_no_input_validation.2.2.1 5 5 3 (-1) ['u'] (by norm_num),
   preloader_no_input_validation.2.2.2 5 5 3 (-1)⟩

namespace DownloadModel

/-- Filter-length bookkeeping for a point update of one list element. -/
lemma length_filter_set {α : Type} (p : α → Bool) (l : List α) (i : ℕ)
    (a b : α) (h : l[i]? = some a) :
    ((l.set i b).filter p).length + (if p a then 1 else 0) =
      (l.filter p).length + (if p b then 1 else 0) := by
  obtain ⟨hlt, hget⟩ := List.getElem?_eq_some_iff.mp h
  have hset : l.set i b = l.take i ++ b :: l.drop (i + 1) := by
    rw [List.set_eq_take_append_cons_drop, if_pos hlt]
  have hl : l = l.take i ++ a :: l.drop (i + 1) := by
    conv_lhs => rw [← List.take_append_drop i l]
    rw [List.drop_eq_getElem_cons hlt, hget]
  rw [hset]
  conv_rhs => rw [hl]
  rw [List.filter_append, List.filter_append, List.length_append,
    List.length_append, List.filter_cons, List.filter_cons]
  by_cases hpb : p b <;> by_cases hpa : p a <;> simp [hpb, hpa] <;> omega

/-- The invariant holds in the initial state. -/
lemma dinv_init (urls : List (List Char)) : DInv (dinit urls) := by
  refine ⟨List.nodup_nil, fun u => ?_⟩
  unfold cntFetch dinit
  have hnil : ((urls.map (fun v => (v, Phase.idle))).filter
      (fun t => decide (t.1 = u ∧ t.2 = Phase.fetching))) = [] := by
    rw [List.filter_eq_nil_iff]
    intro t ht
    rcases List.mem_map.mp ht with ⟨v, _, rfl⟩
    simp
  dsimp only
  rw [hnil]
  simp [cntActive]

/-- Counting a url just prepended. -/
lemma cntActive_cons_self (l : List (List Char)) (u : List Char) :
    cntActive (u :: l) u = cntActive l u + 1 := by
  simp [cntActive, List.filter_cons]

/-- Prepending a different url does not change the count. -/
lemma cntActive_cons_ne (l : List (List Char)) (u v : List Char)
    (h : u ≠ v) : cntActive (v :: l) u = cntActive l u := by
  simp [cntActive, List.filter_cons, show ¬ v = u from fun e => h e.symm]

/-- Erasing one occurrence decrements the url's count. -/
lemma cntActive_erase_self :
    ∀ (l : List (List Char)) (u : List Char),
      cntActive (l.erase u) u = cntActive l u - 1
  | [], _ => rfl
  | v :: rest, u => by
    rw [List.erase_cons]
    by_cases hv : v = u
    · rw [if_pos (by simp [hv]), hv, cntActive_cons_self]
      omega
    · rw [if_neg (by simp [hv]),
        cntActive_cons_ne _ _ _ (fun e => hv e.symm),
        cntActive_cons_ne _ _ _ (fun e => hv e.symm)]
      exact cntActive_erase_self rest u

/-- Erasing an occurrence of a different url leaves the count alone. -/
lemma cntActive_erase_ne :
    ∀ (l : List (List Char)) (u u' : List Char), u' ≠ u →
      cntActive (l.erase u) u' = cntActive l u'
  | [], _, _, _ => rfl
  | v :: rest, u, u', h => by
    rw [List.erase_cons]
    by_cases hv : v = u
    · rw [if_pos (by simp [hv]),
        cntActive_cons_ne _ _ _ (fun e => h (e.trans hv))]
    · rw [if_neg (by simp [hv])]
      by_cases hvu : v = u'
      · rw [hvu, cntActive_cons_self, cntActive_cons_self,
          cntActive_erase_ne rest u u' h]
      · rw [cntActive_cons_ne _ _ _ (fun e => hvu e.symm),
          cntActive_cons_ne _ _ _ (fun e => hvu e.symm)]
        exact cntActive_erase_ne rest u u' h

/-- Prepending can only grow a count. -/
lemma cntActive_le_cons (l : List (List Char)) (v u : List Char) :
    cntActive l u ≤ cntActive (v :: l) u := by
  by_cases hv : v = u
  · rw [hv, cntActive_cons_self]
    omega
  · rw [cntActive_cons_ne _ _ _ (fun e => hv e.symm)]

/-- A member is counted at least once. -/
lemma one_le_cntActive_of_mem {l : List (List Char)} {u : List Char}
    (h : u ∈ l) : 1 ≤ cntActive l u := by
  unfold cntActive
  exact List.length_pos_of_mem (List.mem_filter.mpr ⟨h, by simp⟩)

/-- Absent urls are counted zero times. -/
lemma cntActive_eq_zero_of_not_mem {l : List (List Char)} {u : List Char}
    (h : u ∉ l) : cntActive l u = 0 := by
  unfold cntActive
  have hnil : l.filter (fun v => decide (v = u)) = [] := by
    rw [List.filter_eq_nil_iff]
    intro v hv
    simp only [decide_eq_true_eq]
    intro e
    exact h (e ▸ hv)
  rw [hnil]
  rfl

/-- Counts at most one of everything implies no duplicates. -/
lemma nodup_of_cntActive_le_one :
    ∀ (l : List (List Char)), (∀ u, cntActive l u ≤ 1) → l.Nodup
  | [], _ => List.nodup_nil
  | a :: rest, h => by
    rw [List.nodup_cons]
    refine ⟨fun hmem => ?_, ?_⟩
    · have h1 := one_le_cntActive_of_mem hmem
      have h2 := h a
      rw [cntActive_cons_self] at h2
      omega
    · exact nodup_of_cntActive_le_one rest
        (fun u => le_trans (cntActive_le_cons rest a u) (h u))

/-- No duplicates implies counts of at most one. -/
lemma cntActive_le_one_of_nodup :
    ∀ (l : List (List Char)), l.Nodup → ∀ u, cntActive l u ≤ 1
  | [], _, _ => by simp [cntActive]
  | a :: rest, hnd, u => by
    have hnd' := List.nodup_cons.mp hnd
    by_cases ha : a = u
    · subst ha
      rw [cntActive_cons_self, cntActive_eq_zero_of_not_mem hnd'.1]
    · rw [cntActive_cons_ne _ _ _ (fun e => ha e.symm)]
      exact cntActive_le_one_of_nodup rest hnd'.2 u

/-- Every scheduler step preserves the invariant: the `start` step begins a
fetch only for a url absent from `activeRequests` (adding it atomically), and
completion steps retire exactly the fetch whose url they remove. -/
lemma dinv_step (st : DState) (a : DAct) (h : DInv st) : DInv (dstep st a) := by
  obtain ⟨hnd, hcnt⟩ := h
  cases a with
  | start i =>
    cases htask : st.tasks[i]? with
    | none => simpa [dstep, htask] using And.intro hnd hcnt
    | some t =>
      obtain ⟨u, ph⟩ := t
      cases ph with
      | idle =>
        by_cases hcache : AdvCacheModel.getCacheKey u ∈ st.cache
        · simp only [dstep, htask, if_pos hcache]
          refine ⟨hnd, fun u' => ?_⟩
          dsimp only
          have hfs := length_filter_set
            (fun t => decide (t.1 = u' ∧ t.2 = Phase.fetching))
            st.tasks i (u, Phase.idle) (u, Phase.done) htask
          simp only [decide_eq_true_eq] at hfs
          rw [if_neg (by simp), if_neg (by simp)] at hfs
          have := hcnt u'
          unfold cntFetch at this ⊢
          omega
        · by_cases hact : u ∈ st.active
          · simp only [dstep, htask, if_neg hcache, if_pos hact]
            refine ⟨hnd, fun u' => ?_⟩
            dsimp only
            have hfs := length_filter_set
              (fun t => decide (t.1 = u' ∧ t.2 = Phase.fetching))
              st.tasks i (u, Phase.idle) (u, Phase.waiting) htask
            rw [if_neg (by simp), if_neg (by simp)] at hfs
            have := hcnt u'
            unfold cntFetch at this ⊢
            omega
          · simp only [dstep, htask, if_neg hcache, if_neg hact]
            refine ⟨List.nodup_cons.mpr ⟨hact, hnd⟩, fun u' => ?_⟩
            dsimp only
            have hfs := length_filter_set
              (fun t => decide (t.1 = u' ∧ t.2 = Phase.fetching))
              st.tasks i (u, Phase.idle) (u, Phase.fetching) htask
            by_cases huu : u = u'
            · subst huu
              rw [if_neg (show ¬ (fun t => decide (t.1 = u ∧ t.2 = Phase.fetching))
                    (u, Phase.idle) = true by simp),
                if_pos (show (fun t => decide (t.1 = u ∧ t.2 = Phase.fetching))
                    (u, Phase.fetching) = true by simp)] at hfs
              rw [cntActive_cons_self]
              have := hcnt u
              unfold cntFetch at this ⊢
              omega
            · rw [if_neg (show ¬ (fun t => decide (t.1 = u' ∧ t.2 = Phase.fetching))
                    (u, Phase.idle) = true by simp),
                if_neg (show ¬ (fun t => decide (t.1 = u' ∧ t.2 = Phase.fetching))
                    (u, Phase.fetching) = true by simp [huu])] at hfs
              rw [cntActive_cons_ne _ _ _ (fun hh => huu hh.symm)]
              have := hcnt u'
              unfold cntFetch at this ⊢
              omega
      | fetching => simpa [dstep, htask] using And.intro hnd hcnt
      | waiting => simpa [dstep, htask] using And.intro hnd hcnt
      | done => simpa [dstep, htask] using And.intro hnd hcnt
  | fetchOk i =>
    cases htask : st.tasks[i]? with
    | none => simpa [dstep, htask] using And.intro hnd hcnt
    | some t =>
      obtain ⟨u, ph⟩ := t
      cases ph with
      | fetching =>
        simp only [dstep, htask]
        refine ⟨hnd.erase u, fun u' => ?_⟩
        dsimp only
        have hfs := length_filter_set
          (fun t => decide (t.1 = u' ∧ t.2 = Phase.fetching))
          st.tasks i (u, Phase.fetching) (u, Phase.done) htask
        by_cases huu : u = u'
        · subst huu
          rw [if_pos (show (fun t => decide (t.1 = u ∧ t.2 = Phase.fetching))
                (u, Phase.fetching) = true by simp),
            if_neg (show ¬ (fun t => decide (t.1 = u ∧ t.2 = Phase.fetching))
                (u, Phase.done) = true by simp)] at hfs
          rw [cntActive_erase_self]
          have := hcnt u
          unfold cntFetch at this ⊢
          omega
        · rw [if_neg (show ¬ (fun t => decide (t.1 = u' ∧ t.2 = Phase.fetching))
                (u, Phase.fetching) = true by simp [huu]),
            if_neg (show ¬ (fun t => decide (t.1 = u' ∧ t.2 = Phase.fetching))
                (u, Phase.done) = true by simp)] at hfs
          rw [cntActive_erase_ne _ _ _ (fun hh => huu hh.symm)]
          have := hcnt u'
          unfold cntFetch at this ⊢
          omega
      | idle => simpa [dstep, htask] using And.intro hnd hcnt
      | waiting => simpa [dstep, htask] using And.intro hnd hcnt
      | done => simpa [dstep, htask] using And.intro hnd hcnt
  | fetchFail i =>
    cases htask : st.tasks[i]? with
    | none => simpa [dstep, htask] using And.intro hnd hcnt
    | some t =>
      obtain ⟨u, ph⟩ := t
      cases ph with
      | fetching =>
        simp only [dstep, htask]
        refine ⟨hnd.erase u, fun u' => ?_⟩
        dsimp only
        have hfs := length_filter_set
          (fun t => decide (t.1 = u' ∧ t.2 = Phase.fetching))
          st.tasks i (u, Phase.fetching) (u, Phase.done) htask
        by_cases huu : u = u'
        · subst huu
          rw [if_pos (show (fun t => decide (t.1 = u ∧ t.2 = Phase.fetching))
                (u, Phase.fetching) = true by simp),
            if_neg (show ¬ (fun t => decide (t.1 = u ∧ t.2 = Phase.fetching))
                (u, Phase.done) = true by simp)] at hfs
          rw [cntActive_erase_self]
          have := hcnt u
          unfold cntFetch at this ⊢
          omega
        · rw [if_neg (show ¬ (fun t => decide (t.1 = u' ∧ t.2 = Phase.fetching))
                (u, Phase.fetching) = true by simp [huu]),
            if_neg (show ¬ (fun t => decide (t.1 = u' ∧ t.2 = Phase.fetching))
                (u, Phase.done) = true by simp)] at hfs
          rw [cntActive_erase_ne _ _ _ (fun hh => huu hh.symm)]
          have := hcnt u'
          unfold cntFetch at this ⊢
          omega
      | idle => simpa [dstep, htask] using And.intro hnd hcnt
      | waiting => simpa [dstep, htask] using And.intro hnd hcnt
      | done => simpa [dstep, htask] using And.intro hnd hcnt
  | poll i =>
    cases htask : st.tasks[i]? with
    | none => simpa [dstep, htask] using And.intro hnd hcnt
    | some t =>
      obtain ⟨u, ph⟩ := t
      cases ph with
      | waiting =>
        by_cases hcache : AdvCacheModel.getCacheKey u ∈ st.cache
        · simp only [dstep, htask, if_pos hcache]
          refine ⟨hnd, fun u' => ?_⟩
          dsimp only
          have hfs := length_filter_set
            (fun t => decide (t.1 = u' ∧ t.2 = Phase.fetching))
            st.tasks i (u, Phase.waiting) (u, Phase.done) htask
          rw [if_neg (by simp), if_neg (by simp)] at hfs
          have := hcnt u'
          unfold cntFetch at this ⊢
          omega
        · simpa [dstep, htask, hcache] using And.intro hnd hcnt
      | idle => simpa [dstep, htask] using And.intro hnd hcnt
      | fetching => simpa [dstep, htask] using And.intro hnd hcnt
      | done => simpa [dstep, htask] using And.intro hnd hcnt

/-- The invariant is preserved along any action sequence. -/
lemma dinv_run : ∀ (acts : List DAct) (st : DState), DInv st →
    DInv (drun st acts)
  | [], _, h => h
  | a :: rest, st, h => by
    rw [drun, List.foldl_cons]
    exact dinv_run rest (dstep st a) (dinv_step st a h)

/-- The invariant bounds in-flight fetches: the fetching urls are pairwise
distinct. -/
lemma dinv_nodup (st : DState) (h : DInv st) : (fetchingUrls st).Nodup := by
  obtain ⟨hnd, hcnt⟩ := h
  apply nodup_of_cntActive_le_one
  intro u
  have hc : cntActive (fetchingUrls st) u = cntFetch st.tasks u := by
    unfold fetchingUrls cntFetch cntActive
    rw [List.filter_map, List.length_map, List.filter_filter]
    congr 1
    apply List.filter_congr
    intro t _
    by_cases h1 : t.1 = u <;> by_cases h2 : t.2 = Phase.fetching <;>
      simp [h1, h2, Function.comp]
  rw [hc, hcnt u]
  exact cntActive_le_one_of_nodup st.active hnd u

end DownloadModel

/-- C7 (amended): in the advanced cache hook's `downloadTile`, the
`activeRequests` check and insertion are a single synchronous step, so along
every interleaving of any number of concurrent `downloadTile` invocations,
the urls with a fetch in flight are pairwise distinct — at no reachable state
are two network fetches in flight for the same url. (The area preloader has
no such dedup; see the counterexample.) -/
theorem downloadTile_single_fetch_per_url (urls : List (List Char))
    (acts : List DownloadModel.DAct) :
    (DownloadModel.fetchingUrls
      (DownloadModel.drun (DownloadModel.dinit urls) acts)).Nodup :=
  DownloadModel.dinv_nodup _
    (DownloadModel.dinv_run acts _ (DownloadModel.dinv_init urls))

/-- C9 (counterexample): `preloadTilesForRoute` with an empty coordinate list
and a template present does not throw: it resolves with an empty tile set
(the segment loop never runs), contrary to the claimed fail-fast validation. -/
theorem preloadRoute_empty_coords_resolves_empty :
    PreloaderModel.preloadTilesForRoute (fun _ _ => [(1, 0, 0)]) []
        (some ['u']) = Except.ok [] ∧
    ∀ msg, PreloaderModel.preloadTilesForRoute (fun _ _ => [(1, 0, 0)]) []
        (some ['u']) ≠ Except.error msg := by
  constructor
  · rfl
  · intro msg h
    simp [PreloaderModel.preloadTilesForRoute] at h

namespace PreloaderModel

lemma isPrefixOf_append_self : ∀ (p t : List Char), p.isPrefixOf (p ++ t) = true
  | [], t => by simp [List.isPrefixOf]
  | c :: cs, t => by simp [List.isPrefixOf, isPrefixOf_append_self cs t]

lemma eq_append_of_isPrefixOf :
    ∀ {p s : List Char}, p.isPrefixOf s = true → s = p ++ s.drop p.length
  | [], s, _ => rfl
  | c :: cs, [], h => by simp [List.isPrefixOf] at h
  | c :: cs, d :: ds, h => by
    simp only [List.isPrefixOf, Bool.and_eq_true, beq_iff_eq] at h
    obtain ⟨rfl, h2⟩ := h
    simp only [List.length_cons, List.drop_succ_cons, List.cons_append]
    exact congrArg (c :: ·) (eq_append_of_isPrefixOf h2)

lemma isPrefixOf_append_of_isPrefixOf {p w : List Char} (v : List Char)
    (h : p.isPrefixOf w = true) : p.isPrefixOf (w ++ v) = true := by
  obtain ⟨t, rfl⟩ : ∃ t, w = p ++ t := ⟨_, eq_append_of_isPrefixOf h⟩
  rw [List.append_assoc]
  exact isPrefixOf_append_self p _

lemma occursAt_mono_append {u : List Char} (v p : List Char) {i : ℕ}
    (h : occursAt u p i) (hi : i ≤ u.length) : occursAt (u ++ v) p i := by
  unfold occursAt at h ⊢
  rw [List.drop_append_of_le_length hi]
  exact isPrefixOf_append_of_isPrefixOf v h

lemma occursAt_shift {v : List Char} (u p : List Char) {j : ℕ}
    (h : occursAt v p j) : occursAt (u ++ v) p (u.length + j) := by
  unfold occursAt at h ⊢
  have hd : (u ++ v).drop (u.length + j) = v.drop j := by
    rw [← List.drop_drop, List.drop_left]
  rw [hd]
  exact h

lemma drop_append_ge (u v : List Char) (n : ℕ) (h : u.length ≤ n) :
    (u ++ v).drop n = v.drop (n - u.length) := by
  have he : u.length + (n - u.length) = n := by omega
  conv_lhs => rw [← he]
  rw [← List.drop_drop, List.drop_left]

lemma replaceFirst_no_occ (p r : List Char) :
    ∀ (s : List Char), (∀ i, ¬ occursAt s p i) → replaceFirst s p r = s
  | [], _ => rfl
  | c :: cs, h => by
    unfold replaceFirst
    rw [if_neg (show ¬ (p.isPrefixOf (c :: cs) = true) from fun hc => h 0 hc)]
    exact congrArg (c :: ·) (replaceFirst_no_occ p r cs (fun i => h (i + 1)))

lemma replaceFirst_decomp (p r : List Char) (hp : p ≠ []) :
    ∀ (a b : List Char), (∀ i, i < a.length → ¬ occursAt (a ++ p ++ b) p i) →
      replaceFirst (a ++ p ++ b) p r = a ++ r ++ b
  | [], b, _ => by
    cases hpp : p with
    | nil => exact absurd hpp hp
    | cons c p' =>
      subst hpp
      rw [List.nil_append, List.nil_append, List.cons_append]
      unfold replaceFirst
      rw [if_pos (by rw [← List.cons_append]; exact isPrefixOf_append_self _ b)]
      rw [← List.cons_append, List.drop_left]
  | c :: a', b, h => by
    have hsh : (c :: a') ++ p ++ b = c :: (a' ++ p ++ b) := by
      simp
    rw [hsh]
    unfold replaceFirst
    have h0 : ¬ (p.isPrefixOf (c :: (a' ++ p ++ b)) = true) := by
      intro hc
      exact h 0 (by simp) (by rw [hsh]; exact hc)
    rw [if_neg h0]
    rw [List.cons_append, List.cons_append]
    refine congrArg (c :: ·) (replaceFirst_decomp p r hp a' b ?_)
    intro i hi hocc
    refine h (i + 1) (by simp; omega) ?_
    rw [hsh]
    exact hocc

lemma isPrefixOf_take :
    ∀ (p w : List Char) (n : ℕ), p.isPrefixOf w = true → p.length ≤ n →
      p.isPrefixOf (w.take n) = true
  | [], w, n, _, _ => by simp [List.isPrefixOf]
  | c :: cs, [], n, h, _ => by simp [List.isPrefixOf] at h
  | c :: cs, d :: ds, 0, _, hn => by simp at hn
  | c :: cs, d :: ds, n + 1, h, hn => by
    simp only [List.isPrefixOf, Bool.and_eq_true, beq_iff_eq] at h
    simp only [List.take_succ_cons, List.isPrefixOf, Bool.and_eq_true,
      beq_iff_eq]
    exact ⟨h.1, isPrefixOf_take cs ds n h.2 (by simp at hn; omega)⟩

lemma first_occurrence (s q : List Char) (hq : q ≠ [])
    (h : ∃ m, occursAt s q m) :
    ∃ j, (s.take j).length = j ∧
      s = s.take j ++ q ++ s.drop (j + q.length) ∧
      occursAt s q j ∧ (∀ m, m < j → ¬ occursAt s q m) ∧
      (∀ m, occursAt s q m → j ≤ m) := by
  refine ⟨Nat.find h, ?_, ?_, Nat.find_spec h,
    fun m hm => Nat.find_min h hm, fun m hm => Nat.find_min' h hm⟩
  · have hj := Nat.find_spec h
    unfold occursAt at hj
    rw [List.length_take]
    have hle : Nat.find h ≤ s.length := by
      by_contra hgt
      push_neg at hgt
      rw [List.drop_eq_nil_of_le (le_of_lt hgt)] at hj
      cases q with
      | nil => exact hq rfl
      | cons c cs => simp [List.isPrefixOf] at hj
    omega
  · have hj := Nat.find_spec h
    unfold occursAt at hj
    have h2 : s.drop (Nat.find h) =
        q ++ (s.drop (Nat.find h)).drop q.length :=
      eq_append_of_isPrefixOf hj
    rw [List.drop_drop] at h2
    conv_lhs => rw [← List.take_append_drop (Nat.find h) s]
    rw [List.append_assoc]
    exact congrArg (s.take (Nat.find h) ++ ·) h2

lemma occursAt_triple {s : List Char} {c : Char} {k : ℕ}
    (h : occursAt s ['{', c, '}'] k) :
    ∃ t, s.drop k = '{' :: c :: '}' :: t := by
  unfold occursAt at h
  exact ⟨_, eq_append_of_isPrefixOf h⟩

lemma drop_succ_of_drop {s : List Char} {k : ℕ} {c : Char} {t : List Char}
    (h : s.drop k = c :: t) : s.drop (k + 1) = t := by
  have : s.drop (k + 1) = (s.drop k).drop 1 := by
    rw [List.drop_drop]
  rw [this, h]
  rfl

lemma no_overlap {s : List Char} {cp cq : Char} {i j : ℕ}
    (hip : occursAt s ['{', cp, '}'] i) (hjq : occursAt s ['{', cq, '}'] j)
    (hcp1 : cp ≠ '{') (hcq1 : cq ≠ '{') (hne : cp ≠ cq) :
    i + 3 ≤ j ∨ j + 3 ≤ i := by
  by_contra hcon
  push_neg at hcon
  obtain ⟨hja, hia⟩ := hcon
  obtain ⟨tp, hp⟩ := occursAt_triple hip
  obtain ⟨tq, hq⟩ := occursAt_triple hjq
  have hcases : i = j ∨ i = j + 1 ∨ i = j + 2 ∨ j = i + 1 ∨ j = i + 2 := by
    omega
  rcases hcases with rfl | rfl | rfl | hj' | hj'
  · have hcomb := hp.symm.trans hq
    simp only [List.cons.injEq, true_and] at hcomb
    exact hne hcomb.1
  · have hq1 := drop_succ_of_drop hq
    have hcomb := hq1.symm.trans hp
    simp only [List.cons.injEq] at hcomb
    exact hcq1 hcomb.1
  · have hq1 := drop_succ_of_drop hq
    have hq2 := drop_succ_of_drop hq1
    have hcomb := hq2.symm.trans hp
    simp only [List.cons.injEq] at hcomb
    exact absurd hcomb.1 (by decide)
  · subst hj'
    have hp1 := drop_succ_of_drop hp
    have hcomb := hp1.symm.trans hq
    simp only [List.cons.injEq] at hcomb
    exact hcp1 hcomb.1
  · subst hj'
    have hp1 := drop_succ_of_drop hp
    have hp2 := drop_succ_of_drop hp1
    have hcomb := hp2.symm.trans hq
    simp only [List.cons.injEq] at hcomb
    exact absurd hcomb.1 (by decide)

lemma occursAt_take {s : List Char} {p : List Char} {i j : ℕ}
    (h : occursAt s p i) (hij : i + p.length ≤ j) :
    occursAt (s.take j) p i := by
  unfold occursAt at h ⊢
  rw [List.drop_take]
  exact isPrefixOf_take p _ _ h (by omega)

lemma occursAt_drop {s : List Char} {p : List Char} {i j : ℕ}
    (h : occursAt s p i) (hij : j ≤ i) :
    occursAt (s.drop j) p (i - j) := by
  unfold occursAt at h ⊢
  rw [List.drop_drop]
  have : j + (i - j) = i := by omega
  rw [this]
  exact h

lemma replaceFirst_keeps (cp cq : Char) (r : List Char)
    (hcp1 : cp ≠ '{') (hcq1 : cq ≠ '{') (hne : cp ≠ cq)
    (s : List Char) (i : ℕ) (h : occursAt s ['{', cp, '}'] i) :
    ∃ k, occursAt (replaceFirst s ['{', cq, '}'] r) ['{', cp, '}'] k := by
  by_cases hq : ∃ m, occursAt s ['{', cq, '}'] m
  · obtain ⟨j, hjlen, hdecomp, hjocc, hjmin, _⟩ :=
      first_occurrence s ['{', cq, '}'] (by simp) hq
    rw [show (['{', cq, '}'] : List Char).length = 3 from rfl] at hdecomp
    have hrw : replaceFirst s ['{', cq, '}'] r =
        s.take j ++ r ++ s.drop (j + 3) := by
      conv_lhs => rw [hdecomp]
      refine replaceFirst_decomp _ r (by simp) _ _ ?_
      intro m hm
      rw [← hdecomp]
      rw [hjlen] at hm
      exact hjmin m hm
    rw [hrw]
    rcases no_overlap h hjocc hcp1 hcq1 hne with hle | hge
    · refine ⟨i, ?_⟩
      rw [List.append_assoc]
      refine occursAt_mono_append _ _ (occursAt_take h (by simp; omega)) ?_
      rw [hjlen]
      omega
    · refine ⟨j + (r.length + (i - (j + 3))), ?_⟩
      have hBi : occursAt (s.drop (j + 3)) ['{', cp, '}'] (i - (j + 3)) :=
        occursAt_drop h (by omega)
      have h1 := occursAt_shift r ['{', cp, '}'] hBi
      have h2 := occursAt_shift (s.take j) ['{', cp, '}'] h1
      rw [List.append_assoc]
      rw [hjlen] at h2
      exact h2
  · push_neg at hq
    exact ⟨i, by rw [replaceFirst_no_occ _ _ s hq]; exact h⟩

lemma replaceFirst_keeps_pair (cp cq : Char) (r : List Char)
    (hcp1 : cp ≠ '{') (hcq1 : cq ≠ '{') (hne : cp ≠ cq)
    (s : List Char) (i₁ i₂ : ℕ) (h12 : i₁ < i₂)
    (h1 : occursAt s ['{', cp, '}'] i₁)
    (h2 : occursAt s ['{', cp, '}'] i₂) :
    ∃ k₁ k₂, k₁ < k₂ ∧
      occursAt (replaceFirst s ['{', cq, '}'] r) ['{', cp, '}'] k₁ ∧
      occursAt (replaceFirst s ['{', cq, '}'] r) ['{', cp, '}'] k₂ := by
  by_cases hq : ∃ m, occursAt s ['{', cq, '}'] m
  · obtain ⟨j, hjlen, hdecomp, hjocc, hjmin, _⟩ :=
      first_occurrence s ['{', cq, '}'] (by simp) hq
    rw [show (['{', cq, '}'] : List Char).length = 3 from rfl] at hdecomp
    have hrw : replaceFirst s ['{', cq, '}'] r =
        s.take j ++ r ++ s.drop (j + 3) := by
      conv_lhs => rw [hdecomp]
      refine replaceFirst_decomp _ r (by simp) _ _ ?_
      intro m hm
      rw [← hdecomp]
      rw [hjlen] at hm
      exact hjmin m hm
    rw [hrw]
    have sep1 := no_overlap h1 hjocc hcp1 hcq1 hne
    have sep2 := no_overlap h2 hjocc hcp1 hcq1 hne
    rcases sep1 with hle1 | hge1
    · rcases sep2 with hle2 | hge2
      · refine ⟨i₁, i₂, h12, ?_, ?_⟩
        · rw [List.append_assoc]
          refine occursAt_mono_append _ _ (occursAt_take h1 (by simp; omega)) ?_
          rw [hjlen]
          omega
        · rw [List.append_assoc]
          refine occursAt_mono_append _ _ (occursAt_take h2 (by simp; omega)) ?_
          rw [hjlen]
          omega
      · refine ⟨i₁, j + (r.length + (i₂ - (j + 3))), by omega, ?_, ?_⟩
        · rw [List.append_assoc]
          refine occursAt_mono_append _ _ (occursAt_take h1 (by simp; omega)) ?_
          rw [hjlen]
          omega
        · have hBi : occursAt (s.drop (j + 3)) ['{', cp, '}'] (i₂ - (j + 3)) :=
            occursAt_drop h2 (by omega)
          have hs1 := occursAt_shift r ['{', cp, '}'] hBi
          have hs2 := occursAt_shift (s.take j) ['{', cp, '}'] hs1
          rw [List.append_assoc]
          rw [hjlen] at hs2
          exact hs2
    · rcases sep2 with hle2 | hge2
      · omega
      · refine ⟨j + (r.length + (i₁ - (j + 3))),
          j + (r.length + (i₂ - (j + 3))), by omega, ?_, ?_⟩
        · have hBi : occursAt (s.drop (j + 3)) ['{', cp, '}'] (i₁ - (j + 3)) :=
            occursAt_drop h1 (by omega)
          have hs1 := occursAt_shift r ['{', cp, '}'] hBi
          have hs2 := occursAt_shift (s.take j) ['{', cp, '}'] hs1
          rw [List.append_assoc]
          rw [hjlen] at hs2
          exact hs2
        · have hBi : occursAt (s.drop (j + 3)) ['{', cp, '}'] (i₂ - (j + 3)) :=
            occursAt_drop h2 (by omega)
          have hs1 := occursAt_shift r ['{', cp, '}'] hBi
          have hs2 := occursAt_shift (s.take j) ['{', cp, '}'] hs1
          rw [List.append_assoc]
          rw [hjlen] at hs2
          exact hs2
  · push_neg at hq
    exact ⟨i₁, i₂, h12, by rw [replaceFirst_no_occ _ _ s hq]; exact h1,
      by rw [replaceFirst_no_occ _ _ s hq]; exact h2⟩

lemma replaceFirst_keeps_self (cp : Char) (r : List Char)
    (hcp1 : cp ≠ '{')
    (s : List Char) (i₁ i₂ : ℕ) (h12 : i₁ < i₂)
    (h1 : occursAt s ['{', cp, '}'] i₁)
    (h2 : occursAt s ['{', cp, '}'] i₂) :
    ∃ k, occursAt (replaceFirst s ['{', cp, '}'] r) ['{', cp, '}'] k := by
  obtain ⟨j, hjlen, hdecomp, hjocc, hjmin, hjle⟩ :=
    first_occurrence s ['{', cp, '}'] (by simp) ⟨i₁, h1⟩
  rw [show (['{', cp, '}'] : List Char).length = 3 from rfl] at hdecomp
  have hrw : replaceFirst s ['{', cp, '}'] r =
      s.take j ++ r ++ s.drop (j + 3) := by
    conv_lhs => rw [hdecomp]
    refine replaceFirst_decomp _ r (by simp) _ _ ?_
    intro m hm
    rw [← hdecomp]
    rw [hjlen] at hm
    exact hjmin m hm
  rw [hrw]
  have hj1 : j ≤ i₁ := hjle i₁ h1
  have hsep : j + 3 ≤ i₂ := by
    by_contra hcon
    push_neg at hcon
    obtain ⟨tp, hp⟩ := occursAt_triple hjocc
    obtain ⟨tq, hq'⟩ := occursAt_triple h2
    have hcases : i₂ = j ∨ i₂ = j + 1 ∨ i₂ = j + 2 := by omega
    rcases hcases with rfl | rfl | rfl
    · omega
    · have hp1 := drop_succ_of_drop hp
      have hcomb := hp1.symm.trans hq'
      simp only [List.cons.injEq] at hcomb
      exact hcp1 hcomb.1
    · have hp1 := drop_succ_of_drop hp
      have hp2 := drop_succ_of_drop hp1
      have hcomb := hp2.symm.trans hq'
      simp only [List.cons.injEq] at hcomb
      exact absurd hcomb.1 (by decide)
  refine ⟨j + (r.length + (i₂ - (j + 3))), ?_⟩
  have hBi : occursAt (s.drop (j + 3)) ['{', cp, '}'] (i₂ - (j + 3)) :=
    occursAt_drop h2 (by omega)
  have hs1 := occursAt_shift r ['{', cp, '}'] hBi
  have hs2 := occursAt_shift (s.take j) ['{', cp, '}'] hs1
  rw [List.append_assoc]
  rw [hjlen] at hs2
  exact hs2

end PreloaderModel

/-- C10: URL template substitution touches only the first occurrence of each
placeholder. First conjunct: one `replace` call rewrites the first occurrence
(`s = a ++ p ++ b` with no occurrence inside `a`) to `a ++ r ++ b`,
returning everything after it — including every later occurrence — verbatim.
Second conjunct: through the full four-stage `buildTileUrl` chain, a
placeholder occurring at least twice in the template still occurs in the
returned URL (placeholders cannot overlap one another, and a substitution of
one placeholder cannot erase an occurrence of another). -/
theorem buildTileUrl_replaces_only_first :
    (∀ (p r a b : List Char), p ≠ [] →
      (∀ i, i < a.length →
        ¬ PreloaderModel.occursAt (a ++ p ++ b) p i) →
      PreloaderModel.replaceFirst (a ++ p ++ b) p r = a ++ r ++ b) ∧
    (∀ (t : List Char) (x y : ℤ) (z : ℕ) (sub : Char) (p : List Char),
      p = PreloaderModel.phX ∨ p = PreloaderModel.phY ∨
        p = PreloaderModel.phZ ∨ p = PreloaderModel.phS →
      (∃ i j, i < j ∧ PreloaderModel.occursAt t p i ∧
        PreloaderModel.occursAt t p j) →
      ∃ k, PreloaderModel.occursAt
        (PreloaderModel.buildTileUrl t x y z sub) p k) := by
  constructor
  · exact fun p r a b hp h => PreloaderModel.replaceFirst_decomp p r hp a b h
  · rintro t x y z sub p hp ⟨i, j, hij, hi, hj⟩
    unfold PreloaderModel.buildTileUrl
    rcases hp with rfl | rfl | rfl | rfl
    · simp only [PreloaderModel.phX, PreloaderModel.phY, PreloaderModel.phZ,
        PreloaderModel.phS] at hi hj ⊢
      obtain ⟨k₁, hk₁⟩ := PreloaderModel.replaceFirst_keeps_self 'x'
        (PreloaderModel.intDigits x) (by decide) t i j hij hi hj
      obtain ⟨k₂, hk₂⟩ := PreloaderModel.replaceFirst_keeps 'x' 'y'
        (PreloaderModel.intDigits y) (by decide) (by decide) (by decide)
        _ k₁ hk₁
      obtain ⟨k₃, hk₃⟩ := PreloaderModel.replaceFirst_keeps 'x' 'z'
        (PreloaderModel.natDigits z) (by decide) (by decide) (by decide)
        _ k₂ hk₂
      obtain ⟨k₄, hk₄⟩ := PreloaderModel.replaceFirst_keeps 'x' 's'
        [sub] (by decide) (by decide) (by decide) _ k₃ hk₃
      exact ⟨k₄, hk₄⟩
    · simp only [PreloaderModel.phX, PreloaderModel.phY, PreloaderModel.phZ,
        PreloaderModel.phS] at hi hj ⊢
      obtain ⟨k₁, k₂, h12, hk₁, hk₂⟩ := PreloaderModel.replaceFirst_keeps_pair
        'y' 'x' (PreloaderModel.intDigits x) (by decide) (by decide)
        (by decide) t i j hij hi hj
      obtain ⟨k₃, hk₃⟩ := PreloaderModel.replaceFirst_keeps_self 'y'
        (PreloaderModel.intDigits y) (by decide) _ k₁ k₂ h12 hk₁ hk₂
      obtain ⟨k₄, hk₄⟩ := PreloaderModel.replaceFirst_keeps 'y' 'z'
        (PreloaderModel.natDigits z) (by decide) (by decide) (by decide)
        _ k₃ hk₃
      obtain ⟨k₅, hk₅⟩ := PreloaderModel.replaceFirst_keeps 'y' 's'
        [sub] (by decide) (by decide) (by decide) _ k₄ hk₄
      exact ⟨k₅, hk₅⟩
    · simp only [PreloaderModel.phX, PreloaderModel.phY, PreloaderModel.phZ,
        PreloaderModel.phS] at hi hj ⊢
      obtain ⟨k₁, k₂, h12, hk₁, hk₂⟩ := PreloaderModel.replaceFirst_keeps_pair
        'z' 'x' (PreloaderModel.intDigits x) (by decide) (by decide)
        (by decide) t i j hij hi hj
      obtain ⟨k₃, k₄, h34, hk₃, hk₄⟩ := PreloaderModel.replaceFirst_keeps_pair
        'z' 'y' (PreloaderModel.intDigits y) (by decide) (by decide)
        (by decide) _ k₁ k₂ h12 hk₁ hk₂
      obtain ⟨k₅, hk₅⟩ := PreloaderModel.replaceFirst_keeps_self 'z'
        (PreloaderModel.natDigits z) (by decide) _ k₃ k₄ h34 hk₃ hk₄
      obtain ⟨k₆, hk₆⟩ := PreloaderModel.replaceFirst_keeps 'z' 's'
        [sub] (by decide) (by decide) (by decide) _ k₅ hk₅
      exact ⟨k₆, hk₆⟩
    · simp only [PreloaderModel.phX, PreloaderModel.phY, PreloaderModel.phZ,
        PreloaderModel.phS] at hi hj ⊢
      obtain ⟨k₁, k₂, h12, hk₁, hk₂⟩ := PreloaderModel.replaceFirst_keeps_pair
        's' 'x' (PreloaderModel.intDigits x) (by decide) (by decide)
        (by decide) t i j hij hi hj
      obtain ⟨k₃, k₄, h34, hk₃, hk₄⟩ := PreloaderModel.replaceFirst_keeps_pair
        's' 'y' (PreloaderModel.intDigits y) (by decide) (by decide)
        (by decide) _ k₁ k₂ h12 hk₁ hk₂
      obtain ⟨k₅, k₆, h56, hk₅, hk₆⟩ := PreloaderModel.replaceFirst_keeps_pair
        's' 'z' (PreloaderModel.natDigits z) (by decide) (by decide)
        (by decide) _ k₃ k₄ h34 hk₃ hk₄
      obtain ⟨k₇, hk₇⟩ := PreloaderModel.replaceFirst_keeps_self 's'
        [sub] (by decide) _ k₅ k₆ h56 hk₅ hk₆
      exact ⟨k₇, hk₇⟩

/-- C10 (witness): substituting `{x}` in the template `{x}ab` rewrites
exactly the first occurrence, and the template `{x}/{x}` keeps a `{x}`
occurrence in the built URL. -/
theorem buildTileUrl_replaces_only_first_witness :
    (PreloaderModel.replaceFirst
        ([] ++ PreloaderModel.phX ++ ['a', 'b']) PreloaderModel.phX ['5'] =
      [] ++ ['5'] ++ ['a', 'b']) ∧
    (∃ k, PreloaderModel.occursAt
      (PreloaderModel.buildTileUrl
        ['{', 'x', '}', '/', '{', 'x', '}'] 7 8 9 'a')
      PreloaderModel.phX k) :=
  ⟨buildTileUrl_replaces_only_first.1 PreloaderModel.phX ['5'] [] ['a', 'b']
      (by decide) (fun i hi => absurd hi (by simp)),
   buildTileUrl_replaces_only_first.2
      ['{', 'x', '}', '/', '{', 'x', '}'] 7 8 9 'a' PreloaderModel.phX
      (Or.inl rfl) ⟨0, 4, by omega, by decide, by decide⟩⟩

